import Mathlib

/-!
Verification of the VLC remote-control client (`src/main.py`).

The development shallowly embeds the parts of the program the properties
talk about:

* `JsonStreamReader.readjson` (the framer), including a faithful model of
  Python's `json.loads` over the buffered text,
* the `VLCApi.read` loop with its reply dispatch and error handling,
* `Request.bytes`, `VLCApi.issue_request`, the reply inspection inside
  `VLCApi.execute`, and the control flow of `VLCApi.connect`.

Modelling conventions:

* The byte buffer is modelled as a `List Char`.  The source manipulates a
  `bytearray` and decodes it as UTF-8 inside `json.loads`; for ASCII data
  (all inputs exercised here) byte positions and character positions
  coincide.  Divergences that only arise for non-ASCII data (a chunk
  boundary splitting a multi-byte sequence) are outside this model.
* Python exceptions are values of small inductive types; `raise` becomes
  returning the corresponding constructor.
* Asynchronous suspension (`await self._wait_for_data`) is modelled by a
  dedicated `wouldBlock` outcome of a single `readjson` invocation, and the
  read loop consumes an explicit list of incoming outcomes.
-/

namespace VlcRemote

/-! ## Character classes

`bytes.isspace` (used by the buffer whitespace skip in `readjson`) accepts
space, tab, newline, carriage return, vertical tab and form feed.
Python's `json` module itself only skips space, tab, newline and carriage
return.  Both sets are modelled separately. -/

/-- Whitespace for the buffer skip in `readjson` (`bytes.isspace`). -/
def pyIsSpaceByte (c : Char) : Bool :=
  c = ' ' || c = '\t' || c = '\n' || c = '\r' || c.toNat = 11 || c.toNat = 12

/-- Whitespace skipped by Python's `json` scanner (`' \t\n\r'`). -/
def jsonWsChar (c : Char) : Bool :=
  c = ' ' || c = '\t' || c = '\n' || c = '\r'

/-- Drop the JSON whitespace at the front of the text, as the
`WHITESPACE.match` calls in `json.decoder` do. -/
def skipWs (s : List Char) : List Char :=
  s.dropWhile jsonWsChar

/-! ## JSON values

Numbers keep their source lexeme: the program never does arithmetic on a
decoded number except comparisons, and the lexeme determines the Python
value.  Object fields keep their textual order, with duplicate keys
resolved last-wins on lookup, exactly as building a `dict` does. -/

/-- Characters able to begin or continue a number token at a scanner
stop point: a digit, the dot, or the exponent markers.  Text following a
parsed value whose first character is not one of these can never change
how far the number lexer reads. -/
def numContChar (c : Char) : Bool :=
  c.isDigit || c = '.' || c = 'e' || c = 'E'

/-- The head of a trailing text, when it cannot extend a number token;
an absent head (end of input) never can. -/
def noExtO : Option Char → Bool
  | none => true
  | some c => !numContChar c

/-- Characters a successfully scanned value can begin with. -/
def valueStartChar (c : Char) : Bool :=
  c = '"' || c = '{' || c = '[' || c = 'n' || c = 't' || c = 'f' ||
    c = 'N' || c = 'I' || c = '-' || c.isDigit

/-- Decoded JSON value, as produced by `json.loads`. -/
inductive JsonValue where
  | null
  | bool (b : Bool)
  | num (lexeme : String)
  | str (s : String)
  | arr (elems : List JsonValue)
  | obj (fields : List (String × JsonValue))

/-- Last-wins field lookup: later duplicate keys overwrite earlier ones
when Python builds the object's `dict`. -/
def dictGet (fields : List (String × JsonValue)) (k : String) : Option JsonValue :=
  (fields.reverse.find? (fun p => p.1 = k)).map (·.2)

/-! ## String scanning (`json.scanner.py_scanstring`)

The scanner is entered just after an opening quote and returns the decoded
content together with the text after the closing quote.  Control
characters below `0x20` are refused (strict mode).  `\uXXXX` escapes with
exactly four hexadecimal digits are decoded, joining surrogate pairs.
Modelling gaps, none reachable from the properties below: Python keeps a
lone surrogate in the decoded `str` (a Lean `Char` cannot hold one, so the
model refuses it), and Python's `int(esc, 16)` tolerates a sign or blanks
inside the four escape characters (the model requires hex digits). -/

/-- Value of one hexadecimal digit. -/
def hexDigitVal? (c : Char) : Option Nat :=
  if '0' ≤ c ∧ c ≤ '9' then some (c.toNat - 48)
  else if 'a' ≤ c ∧ c ≤ 'f' then some (c.toNat - 87)
  else if 'A' ≤ c ∧ c ≤ 'F' then some (c.toNat - 55)
  else none

/-- Value of a four-digit hexadecimal escape. -/
def hex4? (a b c d : Char) : Option Nat :=
  match hexDigitVal? a, hexDigitVal? b, hexDigitVal? c, hexDigitVal? d with
  | some x, some y, some z, some w => some (((x * 16 + y) * 16 + z) * 16 + w)
  | _, _, _, _ => none

/-- Decoded form of a single-character escape. -/
def escChar? (c : Char) : Option Char :=
  if c = '"' then some '"'
  else if c = '\\' then some '\\'
  else if c = '/' then some '/'
  else if c = 'b' then some (Char.ofNat 8)
  else if c = 'f' then some (Char.ofNat 12)
  else if c = 'n' then some '\n'
  else if c = 'r' then some '\r'
  else if c = 't' then some '\t'
  else none

/-- Scan a string body (the opening quote already consumed), returning the
content and the rest of the text after the closing quote.  The fuel
argument only bounds the recursion; every caller supplies more fuel than
the text's length, which is ample because each step consumes at least one
character. -/
def scanString : Nat → List Char → Option (List Char × List Char)
  | 0, _ => none
  | _, [] => none
  | _n + 1, c :: rest =>
    if c = '"' then some ([], rest)
    else if c = '\\' then
      match rest with
      | [] => none
      | e :: rest2 =>
        if e = 'u' then
          match rest2 with
          | h1 :: h2 :: h3 :: h4 :: rest3 =>
            (match hex4? h1 h2 h3 h4 with
             | none => none
             | some code =>
               if 0xD800 ≤ code ∧ code ≤ 0xDBFF then
                 match rest3 with
                 | b2 :: u2 :: g1 :: g2 :: g3 :: g4 :: rest4 =>
                   if b2 = '\\' ∧ u2 = 'u' then
                     match hex4? g1 g2 g3 g4 with
                     | none => none
                     | some low =>
                       if 0xDC00 ≤ low ∧ low ≤ 0xDFFF then
                         match scanString _n rest4 with
                         | none => none
                         | some (cs, r) =>
                           some (Char.ofNat
                               (0x10000 + (code - 0xD800) * 0x400 + (low - 0xDC00)) :: cs,
                             r)
                       else none
                   else none
                 | _ => none
               else if 0xDC00 ≤ code ∧ code ≤ 0xDFFF then none
               else
                 match scanString _n rest3 with
                 | none => none
                 | some (cs, r) => some (Char.ofNat code :: cs, r))
          | _ => none
        else
          match escChar? e with
          | none => none
          | some ec =>
            match scanString _n rest2 with
            | none => none
            | some (cs, r) => some (ec :: cs, r)
    else if c.toNat < 0x20 then none
    else
      match scanString _n rest with
      | none => none
      | some (cs, r) => some (c :: cs, r)

/-! ## Number lexing (`json.scanner.NUMBER_RE`)

The regular expression is `(-?(?:0|[1-9]\d+|[1-9]))(\.\d+)?([eE][-+]?\d+)?`
matched at the current position: an optional sign, an integer part with no
leading zero, then an optional fraction and exponent each requiring at
least one digit to take part in the match at all. -/

/-- Integer part of a number: `0`, or a nonzero digit followed by digits. -/
def lexIntDigits : List Char → Option (List Char × List Char)
  | [] => none
  | c :: r =>
    if c = '0' then some (['0'], r)
    else if c.isDigit then
      some (c :: r.takeWhile Char.isDigit, r.dropWhile Char.isDigit)
    else none

/-- Optional fraction `.digits`; consumes nothing unless a digit follows
the dot, mirroring the regular expression's group `(\.\d+)?`. -/
def lexFrac (s : List Char) : List Char × List Char :=
  match s with
  | [] => ([], [])
  | c :: r =>
    if c = '.' then
      if r.takeWhile Char.isDigit = [] then ([], c :: r)
      else ('.' :: r.takeWhile Char.isDigit, r.dropWhile Char.isDigit)
    else ([], c :: r)

/-- Optional exponent `[eE][-+]?digits`; consumes nothing unless at least
one digit follows, mirroring the group `([eE][-+]?\d+)?`. -/
def lexExp (s : List Char) : List Char × List Char :=
  match s with
  | c :: r =>
    if c = 'e' ∨ c = 'E' then
      match r with
      | c2 :: rr =>
        if c2 = '+' ∨ c2 = '-' then
          if rr.takeWhile Char.isDigit = [] then ([], s)
          else (c :: c2 :: rr.takeWhile Char.isDigit, rr.dropWhile Char.isDigit)
        else
          if r.takeWhile Char.isDigit = [] then ([], s)
          else (c :: r.takeWhile Char.isDigit, r.dropWhile Char.isDigit)
      | [] => ([], s)
    else ([], s)
  | [] => ([], [])

/-- Lex one number at the current position, returning its lexeme and the
rest of the text. -/
def lexNumber (s : List Char) : Option (List Char × List Char) :=
  let signAndRest : List Char × List Char :=
    match s with
    | [] => ([], [])
    | c :: r => if c = '-' then (['-'], r) else ([], c :: r)
  match lexIntDigits signAndRest.2 with
  | none => none
  | some (ip, r1) =>
    let fr := lexFrac r1
    let ex := lexExp fr.2
    some (signAndRest.1 ++ ip ++ fr.1 ++ ex.1, ex.2)

/-- Match an expected run of characters at the head of the text,
returning what follows it. -/
def expectChars : List Char → List Char → Option (List Char)
  | [], s => some s
  | c :: cs, s =>
    match s with
    | [] => none
    | x :: xs => if x = c then expectChars cs xs else none

/-! ## Value scanning (`json.scanner.py_make_scanner`)

One step of the scanner parses exactly one value starting at the current
position (no leading whitespace).  The recursion is bounded by a fuel
argument; `jsonLoads` supplies `length + 1`, which is ample because every
recursive call consumes at least one character first. -/

mutual

/-- Parse one JSON value at the head of the text. -/
def parseVal : Nat → List Char → Option (JsonValue × List Char)
  | 0, _ => none
  | _n + 1, s =>
    match s with
    | [] => none
    | c :: rest =>
      if c = '"' then (scanString _n rest).map (fun p => (.str (String.mk p.1), p.2))
      else if c = '{' then
        (match skipWs rest with
         | '}' :: r => some (.obj [], r)
         | '"' :: r => parseMembers _n r []
         | _ => none)
      else if c = '[' then
        (match skipWs rest with
         | ']' :: r => some (.arr [], r)
         | s1 => parseElems _n s1 [])
      else if c = 'n' then
        (match expectChars ['u', 'l', 'l'] rest with
         | some r => some (.null, r)
         | none => none)
      else if c = 't' then
        (match expectChars ['r', 'u', 'e'] rest with
         | some r => some (.bool true, r)
         | none => none)
      else if c = 'f' then
        (match expectChars ['a', 'l', 's', 'e'] rest with
         | some r => some (.bool false, r)
         | none => none)
      else if c = 'N' then
        (match expectChars ['a', 'N'] rest with
         | some r => some (.num "NaN", r)
         | none => none)
      else if c = 'I' then
        (match expectChars ['n', 'f', 'i', 'n', 'i', 't', 'y'] rest with
         | some r => some (.num "Infinity", r)
         | none => none)
      else if c = '-' then
        (match expectChars ['I', 'n', 'f', 'i', 'n', 'i', 't', 'y'] rest with
         | some r => some (.num "-Infinity", r)
         | none => (lexNumber (c :: rest)).map (fun p => (.num (String.mk p.1), p.2)))
      else (lexNumber (c :: rest)).map (fun p => (.num (String.mk p.1), p.2))

/-- Parse the members of an object, positioned just after the opening
quote of the next key; `acc` holds the members already read. -/
def parseMembers : Nat → List Char → List (String × JsonValue) →
    Option (JsonValue × List Char)
  | 0, _, _ => none
  | _n + 1, s, acc =>
    match scanString _n s with
    | none => none
    | some (key, s1) =>
      match skipWs s1 with
      | ':' :: s2 =>
        (match parseVal _n (skipWs s2) with
         | none => none
         | some (v, s3) =>
           match skipWs s3 with
           | '}' :: r => some (.obj (acc ++ [(String.mk key, v)]), r)
           | ',' :: s4 =>
             (match skipWs s4 with
              | '"' :: s5 => parseMembers _n s5 (acc ++ [(String.mk key, v)])
              | _ => none)
           | _ => none)
      | _ => none

/-- Parse the elements of a non-empty array, positioned at the start of
the next element. -/
def parseElems : Nat → List Char → List JsonValue →
    Option (JsonValue × List Char)
  | 0, _, _ => none
  | _n + 1, s, acc =>
    match parseVal _n s with
    | none => none
    | some (v, s1) =>
      match skipWs s1 with
      | ']' :: r => some (.arr (acc ++ [v]), r)
      | ',' :: s2 => parseElems _n (skipWs s2) (acc ++ [v])
      | _ => none

end

/-- Outcome of `json.loads` as observed by `readjson`: a value consuming
everything, a `JSONDecodeError` whose message is `'Extra data'` (with the
position of the first trailing character, trailing whitespace already
skipped), or any other `JSONDecodeError`. -/
inductive LoadRes where
  | ok (v : JsonValue)
  | extraData (pos : Nat)
  | fail

/-- Model of `json.loads`: skip leading whitespace, parse one value, skip
trailing whitespace, and demand the end of the text, reporting `Extra
data` at the offset of the first trailing character otherwise. -/
def jsonLoads (s : List Char) : LoadRes :=
  match parseVal (s.length + 1) (skipWs s) with
  | none => .fail
  | some (v, rest) =>
    if skipWs rest = [] then .ok v
    else .extraData (s.length - (skipWs rest).length)

/-! ## The framer: `JsonStreamReader.readjson` -/

/-- Outcome of one `readjson` invocation on a given buffer.  Each
constructor carries the buffer contents after the call:

* `ok`: a value was returned;
* `incompleteRead`: `IncompleteReadError` was raised carrying the partial
  data, the buffer cleared first;
* `limitOverrun`: `LimitOverrunError` was raised, the buffer untouched
  beyond the initial whitespace skip;
* `assertError`: the defensive check `first in (b'\x7b', b'[')` failed;
* `decodeError`: the re-parse of the sliced chunk raised, after the slice
  was already consumed (unreachable in practice, kept for fidelity);
* `wouldBlock`: the call suspended in `_wait_for_data` awaiting bytes. -/
inductive ReadRes where
  | ok (v : JsonValue) (buf : List Char)
  | incompleteRead (chunkData : List Char) (buf : List Char)
  | limitOverrun (sep : Nat) (buf : List Char)
  | assertError (buf : List Char)
  | decodeError (buf : List Char)
  | wouldBlock (buf : List Char)

/-- Body of one `readjson` invocation after the initial whitespace skip
(src/main.py lines 36-70): inspect the buffer, check the json-start
assertion, attempt the parse, pick the separator position, and apply the
limit check before slicing the frame out. -/
def readjsonCore (buf : List Char) (eof : Bool) (limit : Nat) : ReadRes :=
  match buf with
  | [] => if eof then .incompleteRead [] [] else .wouldBlock []
  | c :: _ =>
    if c = '{' ∨ c = '[' then
      match jsonLoads buf with
      | .ok v =>
        if limit < buf.length - 1 then .limitOverrun (buf.length - 1) buf
        else .ok v (buf.drop (buf.length - 1))
      | .extraData pos =>
        if limit < pos then .limitOverrun pos buf
        else
          match jsonLoads (buf.take pos) with
          | .ok v => .ok v (buf.drop pos)
          | _ => .decodeError (buf.drop pos)
      | .fail => if eof then .incompleteRead buf [] else .wouldBlock buf
    else .assertError buf

/-- One invocation of `JsonStreamReader.readjson` (src/main.py lines
15-70) on the current buffer, end-of-file flag and configured limit: the
loop first deletes the leading whitespace bytes, then runs the body.  The
stored-exception fast path at the top of the method is modelled at the
read-loop level instead (an error item in the loop's input). -/
def readjson (buffer : List Char) (eof : Bool) (limit : Nat) : ReadRes :=
  readjsonCore (buffer.dropWhile pyIsSpaceByte) eof limit

/-! ## Python exceptions relevant to the client -/

/-- The exceptions the client can raise or observe.  `osError` stands for
any other transport-level error (for example `ConnectionResetError`),
which is neither a `RuntimeError` nor an `IncompleteReadError`. -/
inductive PyExc where
  | runtimeError
  | incompleteReadError (chunkData : List Char)
  | limitOverrunError (consumed : Nat)
  | assertionError
  | jsonDecodeError
  | invalidStateError
  | attributeError
  | connectionRefusedError
  | osError (code : Nat)
deriving DecidableEq

/-- The exception a failing `readjson` outcome raises. -/
def ReadRes.raised? : ReadRes → Option PyExc
  | .incompleteRead chunkData _ => some (.incompleteReadError chunkData)
  | .limitOverrun sep _ => some (.limitOverrunError sep)
  | .assertError _ => some .assertionError
  | .decodeError _ => some .jsonDecodeError
  | _ => none

/-! ## Futures and pending requests -/

/-- State of an `asyncio.Future`: not yet done, done with a result, or
cancelled. -/
inductive FutureState where
  | pending
  | resolved
  | cancelled
deriving DecidableEq

/-- `Future.set_result`: succeeds only on a future that is not done yet,
raising `InvalidStateError` otherwise. -/
def set_result : FutureState → Except PyExc FutureState
  | .pending => .ok .resolved
  | _ => .error .invalidStateError

/-- `Future.cancel`: cancels a pending future, a no-op on a done one. -/
def cancelFuture : FutureState → FutureState
  | .pending => .cancelled
  | fs => fs

/-- The `Request` dataclass (src/main.py lines 81-92). -/
structure Request where
  request_id : Nat
  request_code : String
  request_reply : Option JsonValue
  completed : FutureState

/-- Bytes put on the wire in `Request.bytes`. -/
def utf8Bytes (s : String) : List Nat :=
  s.toUTF8.toList.map (fun b => b.toNat)

/-- `Request.bytes` (src/main.py lines 88-92): measure
`"<id>:<code>"`, then prepend that length and a colon, and UTF-8 encode
the whole string.  `len` on a Python `str` counts characters, as
`String.length` does. -/
def Request.bytes (r : Request) : List Nat :=
  let message := toString r.request_id ++ ":" ++ r.request_code
  let msg_length := message.length
  let full_message := toString msg_length ++ ":" ++ message
  utf8Bytes full_message

/-! ## Reply correlation (the pending table) -/

/-- Numeric value of a digit string. -/
def digitsToNat (ds : List Char) : Nat :=
  ds.foldl (fun n c => n * 10 + (c.toNat - 48)) 0

/-- Integer denoted by a number lexeme consisting only of digits with an
optional sign.  A lexeme with a fraction or exponent decodes to a Python
float; such a value equals an integer key only up to float rounding,
which this model does not reproduce — those ids are treated as matching
no entry. -/
def intLexeme? (lx : String) : Option Int :=
  match lx.data with
  | '-' :: ds =>
    if ds ≠ [] ∧ ds.all Char.isDigit then some (-(digitsToNat ds : Int)) else none
  | ds =>
    if ds ≠ [] ∧ ds.all Char.isDigit then some (digitsToNat ds : Int) else none

/-- Which decoded values equal an integer dictionary key in Python.
Booleans do: `bool` is a subclass of `int`, so `True` equals the key `1`
and `False` the key `0`.  Strings, nulls, containers never equal an
integer. -/
def jsonKeyInt : JsonValue → Option Int
  | .num lx => intLexeme? lx
  | .bool b => some (if b then 1 else 0)
  | _ => none

/-- The `reply_id` carried by a message, as an integer able to match a
pending-table key: the field must be present and equal an integer. -/
def getReplyId : JsonValue → Option Int
  | .obj fields => (dictGet fields "reply_id").bind jsonKeyInt
  | _ => none

/-- Lookup in the pending table (`self.current_requests.get(reply_id)`);
keys are unique by construction (a fresh counter value per request). -/
def lookupReq : List (Nat × Request) → Int → Option Request
  | [], _ => none
  | p :: rest, rid => if (p.1 : Int) = rid then some p.2 else lookupReq rest rid

/-- Replace the entry with the given id, leaving every other entry
untouched. -/
def updateReq : List (Nat × Request) → Int → Request → List (Nat × Request)
  | [], _, _ => []
  | p :: rest, rid, req =>
    (if (p.1 : Int) = rid then (p.1, req) else p) :: updateReq rest rid req

/-- One loop-body step of `VLCApi.read` for an incoming decoded message
(src/main.py lines 154-169): extract `reply_id` (an id-less message is
unsolicited and skipped), look the id up (a missing entry means the
request was dropped, also skipped), store the reply on the entry, and
resolve its future unless it was already cancelled.  `set_result` on a
future that is already done raises, which propagates out of the loop
body; the second component carries such an exception. -/
def dispatchReply (table : List (Nat × Request)) (reply : JsonValue) :
    List (Nat × Request) × Option PyExc :=
  match reply with
  | .obj fields =>
    (match dictGet fields "reply_id" with
     | none => (table, none)
     | some idv =>
       match jsonKeyInt idv with
       | none => (table, none)
       | some rid =>
         match lookupReq table rid with
         | none => (table, none)
         | some req =>
           let req' := { req with request_reply := some reply }
           if req.completed = FutureState.cancelled then
             (updateReq table rid req', none)
           else
             match set_result req.completed with
             | .ok fs => (updateReq table rid { req' with completed := fs }, none)
             | .error e => (updateReq table rid req', some e))
  | _ => (table, some .attributeError)

/-- Fold `dispatchReply` over a list of messages, stopping at the first
exception. -/
def processMsgs (table : List (Nat × Request)) :
    List JsonValue → List (Nat × Request) × Option PyExc
  | [] => (table, none)
  | v :: rest =>
    match dispatchReply table v with
    | (t, none) => processMsgs t rest
    | (t, some e) => (t, some e)

/-! ## The client state and the read loop -/

/-- The mutable fields of `VLCApi` that the modelled operations touch.
`written` records the frames passed to `self.writer.write`, newest last.
`shutdown_cancelled` is the state of the `shutdown` future (`true` once
cancelled). -/
structure VLCState where
  request_count : Nat
  current_requests : List (Nat × Request)
  read_exception : Option PyExc
  reader_task : Bool
  shutdown_cancelled : Bool
  written : List (List Nat)

/-- Which exceptions the read loop's `except` clause catches
(src/main.py line 171): exactly `RuntimeError` and
`IncompleteReadError`. -/
def caughtByReadLoop : PyExc → Bool
  | .runtimeError => true
  | .incompleteReadError _ => true
  | _ => false

/-- Cancel every still-pending entry, as the loop's handler does. -/
def cancelPending (table : List (Nat × Request)) : List (Nat × Request) :=
  table.map (fun p => (p.1, { p.2 with completed := cancelFuture p.2.completed }))

/-- The `except` clause of `VLCApi.read` (lines 171-176): a caught
exception is recorded and every pending entry cancelled; any other
exception propagates with the state untouched. -/
def readLoopHandle (st : VLCState) (e : PyExc) : VLCState :=
  if caughtByReadLoop e then
    { st with read_exception := some e,
              current_requests := cancelPending st.current_requests }
  else st

/-- The `finally` clause of `VLCApi.read` (lines 178-181): drop the task
reference and cancel the shutdown future. -/
def readLoopFinally (st : VLCState) : VLCState :=
  { st with reader_task := false, shutdown_cancelled := true }

/-- One outcome of `await self.reader.readjson()` inside the loop: a
decoded message, or an exception raised by the read (including a stored
stream exception re-raised by `readjson`'s first lines). -/
inductive ReadItem where
  | msg (v : JsonValue)
  | err (e : PyExc)

/-- The read loop `VLCApi.read` (lines 151-181) over a list of incoming
outcomes: dispatch messages until an exception ends the loop through the
handler and the `finally` clause; items after the exception are never
looked at. -/
def readLoop (st : VLCState) : List ReadItem → VLCState
  | [] => readLoopFinally st
  | .msg v :: rest =>
    (match dispatchReply st.current_requests v with
     | (t, none) => readLoop { st with current_requests := t } rest
     | (t, some e) => readLoopFinally (readLoopHandle { st with current_requests := t } e))
  | .err e :: _ => readLoopFinally (readLoopHandle st e)

/-! ## Request issuance and execution -/

/-- `VLCApi.issue_request` (src/main.py lines 189-206): fail fast on a
recorded read error; otherwise allocate the next id, insert the pending
entry, and write the encoded frame.  (`if self.read_exception:` tests
truthiness, but exception instances are always truthy, so it is the same
as a `None` test.)  The done-callback that removes the entry on
completion fires later, through the event loop, and is not part of this
step. -/
def issue_request (st : VLCState) (lua : String) : VLCState × Except PyExc Nat :=
  match st.read_exception with
  | some e => (st, .error e)
  | none =>
    let req_id := st.request_count
    let request : Request :=
      { request_id := req_id, request_code := lua,
        request_reply := none, completed := .pending }
    ({ st with
        request_count := req_id + 1,
        current_requests := st.current_requests ++ [(req_id, request)],
        written := st.written ++ [request.bytes] },
     .ok req_id)

/-- Python truthiness of a decoded JSON value, as tested by
`if obj['timeout']:`.  A number is truthy when its value is nonzero,
modelled as the mantissa holding a nonzero digit (the constants `NaN` and
`Infinity` are truthy); a float that underflows to zero, such as
`1e-999`, is not reproduced. -/
def pyTruthy : JsonValue → Bool
  | .null => false
  | .bool b => b
  | .num lx =>
    (lx.data.takeWhile (fun c => c ≠ 'e' ∧ c ≠ 'E')).any
        (fun c => '1' ≤ c ∧ c ≤ '9')
      || lx = "NaN" || lx = "Infinity" || lx = "-Infinity"
  | .str s => s ≠ ""
  | .arr l => !l.isEmpty
  | .obj l => !l.isEmpty

/-- How `VLCApi.execute` ends, given the awaited reply payload. -/
inductive ExecOutcome where
  | ok (v : JsonValue)
  | timeoutError (lua : String)
  | remoteError (lua : String) (err : JsonValue)
  | keyError (k : String)
  | typeError

/-- The reply inspection in `VLCApi.execute` (src/main.py lines 213-220):
`obj['timeout']` is read unconditionally (a `KeyError` when the key is
missing, a `TypeError` when the payload is not a dictionary); a truthy
value raises `TimeoutError`; otherwise a present, non-null `error` field
raises `RuntimeError` carrying it; otherwise the payload is returned. -/
def execute_post (lua : String) (obj : JsonValue) : ExecOutcome :=
  match obj with
  | .obj fields =>
    (match dictGet fields "timeout" with
     | none => .keyError "timeout"
     | some tv =>
       if pyTruthy tv then .timeoutError lua
       else
         match dictGet fields "error" with
         | none => .ok (.obj fields)
         | some .null => .ok (.obj fields)
         | some ev => .remoteError lua ev)
  | _ => .typeError

/-! ## Connect -/

/-- Outcome of one `self._open_connection` attempt. -/
inductive OpenOutcome where
  | ok
  | refused
  | failed (e : PyExc)
deriving DecidableEq

/-- Body of the outer `try` in `VLCApi.connect` (src/main.py lines
132-144): open the transport, retrying once after a refusal; then create
the `shutdown` future, start the loop and assert the self-test.  An error
outcome carries the exception together with whether `self.shutdown` had
been assigned by then — it is assigned only after the transport opens
(line 141), and `__init__` never assigns it. -/
def connectBody : OpenOutcome → OpenOutcome → Bool → Except (PyExc × Bool) Unit
  | .ok, _, testOk => if testOk then .ok () else .error (.assertionError, true)
  | .refused, a2, testOk =>
    (match a2 with
     | .ok => if testOk then .ok () else .error (.assertionError, true)
     | .refused => .error (.connectionRefusedError, false)
     | .failed e => .error (e, false))
  | .failed e, _, _ => .error (e, false)

/-- How `VLCApi.connect` ends. -/
inductive ConnectOutcome where
  | success
  | raised (e : PyExc)
deriving DecidableEq

/-- `VLCApi.connect` on a fresh client (src/main.py lines 127-149): the
bare `except:` handler reads `self.shutdown.cancelled()`; when the body
failed before line 141 ever ran, that attribute read itself raises
`AttributeError`, replacing the in-flight exception; otherwise the
shutdown future is cancelled and the original exception re-raised. -/
def connect (attempt1 attempt2 : OpenOutcome) (testOk : Bool) : ConnectOutcome :=
  match connectBody attempt1 attempt2 testOk with
  | .ok _ => .success
  | .error (e, sset) => .raised (if sset then e else .attributeError)

/-! ## Statement-side definitions -/

/-- The outgoing wire format as the specification words it: measure
`"<id>:<commandText>"` to get the inner length, then UTF-8 encode
`"<innerLength>:<id>:<commandText>"`, with no trailing delimiter. -/
def specWireFrame (id : Nat) (commandText : String) : List Nat :=
  let inner := toString id ++ ":" ++ commandText
  let innerLength := inner.length
  utf8Bytes (toString innerLength ++ ":" ++ inner)

/-- Dispatch a whole list of incoming replies in order. -/
def dispatchAll (table : List (Nat × Request)) (replies : List JsonValue) :
    List (Nat × Request) :=
  replies.foldl (fun t v => (dispatchReply t v).1) table

/-- A pending request as `issue_request` creates it. -/
def sampleRequest (id : Nat) : Request :=
  { request_id := id, request_code := "return 2+2",
    request_reply := none, completed := .pending }

/-- A client with one outstanding request. -/
def oneRequestState : VLCState :=
  { request_count := 1, current_requests := [(0, sampleRequest 0)],
    read_exception := none, reader_task := true,
    shutdown_cancelled := false, written := [] }

/-- A client with three outstanding requests. -/
def threeRequestState : VLCState :=
  { request_count := 3,
    current_requests :=
      [(0, sampleRequest 0), (1, sampleRequest 1), (2, sampleRequest 2)],
    read_exception := none, reader_task := true,
    shutdown_cancelled := false, written := [] }

/-- A well-formed reply to the request with the given id. -/
def sampleReply (id : Nat) : JsonValue :=
  .obj [("reply_id", .num (toString id)), ("result", .num "4")]

/-! # Helper lemmas -/

/-- A span of characters all satisfying `p` followed by text that does
not start with one is exactly what `takeWhile` keeps. -/
theorem takeWhile_app_eq (p : Char → Bool) (a b : List Char)
    (ha : ∀ x ∈ a, p x = true)
    (hb : ∀ c, b.head? = some c → p c = false) :
    (a ++ b).takeWhile p = a := by
  induction a with
  | nil =>
    cases b with
    | nil => rfl
    | cons c bs => simp [List.takeWhile_cons, hb c rfl]
  | cons x xs ih =>
    simp [List.takeWhile_cons, ha x (by simp),
      ih (fun y hy => ha y (by simp [hy]))]

/-- A span of characters all satisfying `p` followed by text that does
not start with one is exactly what `dropWhile` removes. -/
theorem dropWhile_app_eq (p : Char → Bool) (a b : List Char)
    (ha : ∀ x ∈ a, p x = true)
    (hb : ∀ c, b.head? = some c → p c = false) :
    (a ++ b).dropWhile p = b := by
  induction a with
  | nil =>
    cases b with
    | nil => rfl
    | cons c bs => simp [List.dropWhile_cons, hb c rfl]
  | cons x xs ih =>
    simp [List.dropWhile_cons, ha x (by simp),
      ih (fun y hy => ha y (by simp [hy]))]

/-- Whatever `dropWhile` leaves does not start with a `p`-character. -/
theorem head?_dropWhile_false (p : Char → Bool) (l : List Char) (c : Char)
    (h : (l.dropWhile p).head? = some c) : p c = false := by
  induction l with
  | nil => simp at h
  | cons x xs ih =>
    rw [List.dropWhile_cons] at h
    by_cases hp : p x = true
    · exact ih (by simpa [hp] using h)
    · simp [hp] at h
      subst h
      simpa using hp

/-- Everything `takeWhile` keeps satisfies `p`. -/
theorem mem_takeWhile_p (p : Char → Bool) (l : List Char) (x : Char)
    (h : x ∈ l.takeWhile p) : p x = true := by
  induction l with
  | nil => simp at h
  | cons y ys ih =>
    rw [List.takeWhile_cons] at h
    by_cases hp : p y = true
    · simp [hp] at h
      rcases h with rfl | h
      · exact hp
      · exact ih h
    · simp [hp] at h

/-- JSON whitespace never continues a number token. -/
theorem jsonWs_noExt (c : Char) (h : jsonWsChar c = true) :
    numContChar c = false := by
  simp [jsonWsChar] at h
  rcases h with ((rfl | rfl) | rfl) | rfl <;> decide

/-- A value's first character is never whitespace. -/
theorem ws_not_valueStart (c : Char) (h : jsonWsChar c = true) :
    valueStartChar c = false := by
  simp [jsonWsChar] at h
  rcases h with ((rfl | rfl) | rfl) | rfl <;> decide

/-- Closing quote: the scanner returns at once. -/
theorem scanString_build_quote (m : Nat) (r : List Char) :
    scanString (m + 1) ('"' :: r) = some ([], r) := by
  rw [scanString.eq_def]
  simp

/-- Rebuild an ordinary character step. -/
theorem scanString_build_char (m : Nat) (c : Char) (t r : List Char)
    (cs : List Char)
    (hq : ¬ c = '"') (hb : ¬ c = '\\') (hc : ¬ c.toNat < 0x20)
    (hs : scanString m t = some (cs, r)) :
    scanString (m + 1) (c :: t) = some (c :: cs, r) := by
  rw [scanString.eq_def]
  simp [hq, hb, hc, hs]

/-- Rebuild a simple escape step. -/
theorem scanString_build_esc (m : Nat) (e ec : Char) (t r : List Char)
    (cs : List Char)
    (hu : ¬ e = 'u') (hesc : escChar? e = some ec)
    (hs : scanString m t = some (cs, r)) :
    scanString (m + 1) ('\\' :: e :: t) = some (ec :: cs, r) := by
  rw [scanString.eq_def]
  simp [hu, hesc, hs]

/-- Rebuild a plain `\uXXXX` escape step. -/
theorem scanString_build_uni (m : Nat) (h1 h2 h3 h4 : Char) (code : Nat)
    (t r : List Char) (cs : List Char)
    (hcode : hex4? h1 h2 h3 h4 = some code)
    (hnh : ¬ (0xD800 ≤ code ∧ code ≤ 0xDBFF))
    (hnl : ¬ (0xDC00 ≤ code ∧ code ≤ 0xDFFF))
    (hs : scanString m t = some (cs, r)) :
    scanString (m + 1) ('\\' :: 'u' :: h1 :: h2 :: h3 :: h4 :: t)
      = some (Char.ofNat code :: cs, r) := by
  rw [scanString.eq_def]
  simp [hcode, hnh, hnl, hs]

/-- Rebuild a surrogate-pair escape step. -/
theorem scanString_build_surr (m : Nat) (h1 h2 h3 h4 g1 g2 g3 g4 : Char)
    (code low : Nat) (t r : List Char) (cs : List Char)
    (hcode : hex4? h1 h2 h3 h4 = some code)
    (hhigh : 0xD800 ≤ code ∧ code ≤ 0xDBFF)
    (hlow : hex4? g1 g2 g3 g4 = some low)
    (hlowr : 0xDC00 ≤ low ∧ low ≤ 0xDFFF)
    (hs : scanString m t = some (cs, r)) :
    scanString (m + 1)
        ('\\' :: 'u' :: h1 :: h2 :: h3 :: h4 ::
          '\\' :: 'u' :: g1 :: g2 :: g3 :: g4 :: t)
      = some (Char.ofNat
          (0x10000 + (code - 0xD800) * 0x400 + (low - 0xDC00)) :: cs, r) := by
  rw [scanString.eq_def]
  simp [hcode, hhigh, hlow, hlowr, hhigh.1, hhigh.2, hlowr.1, hlowr.2, hs]

/-- The string scanner never looks past the closing quote: whatever
follows the scanned span can be replaced freely, under any ample
fuel. -/
theorem scanString_swap : ∀ (n : Nat) (s cs r : List Char),
    scanString n s = some (cs, r) →
    ∃ c, s = c ++ r ∧ ∀ (n₂ : Nat) (r₂ : List Char),
      c.length < n₂ → scanString n₂ (c ++ r₂) = some (cs, r₂) := by
  intro n
  induction n with
  | zero => intro s cs r h; cases s <;> exact Option.noConfusion h
  | succ n ih =>
    intro s cs r h
    cases s with
    | nil => exact Option.noConfusion h
    | cons c0 rest =>
      rw [scanString.eq_def] at h
      simp only at h
      by_cases hq : c0 = '"'
      · rw [if_pos hq] at h
        subst hq
        have h' := Option.some.inj h
        refine ⟨['"'], ?_, ?_⟩
        · rw [(Prod.mk.inj h').2]
          rfl
        · intro n₂ r₂ hb₂
          obtain ⟨m, rfl⟩ : ∃ m, n₂ = m + 1 := ⟨n₂ - 1, by omega⟩
          rw [← (Prod.mk.inj h').1]
          exact scanString_build_quote m r₂
      · rw [if_neg hq] at h
        by_cases hbs : c0 = '\\'
        · rw [if_pos hbs] at h
          subst hbs
          cases rest with
          | nil => simp at h
          | cons e rest2 =>
            simp only at h
            by_cases hu : e = 'u'
            · rw [if_pos hu] at h
              subst hu
              split at h
              · rename_i h1 h2 h3 h4 rest3
                cases hcode : hex4? h1 h2 h3 h4 with
                | none => rw [hcode] at h; exact Option.noConfusion h
                | some code =>
                  rw [hcode] at h
                  simp only at h
                  split at h
                  · rename_i hhigh
                    split at h
                    · rename_i b2 u2 g1 g2 g3 g4 rest4
                      split at h
                      · rename_i hbu
                        obtain ⟨rfl, rfl⟩ := hbu
                        cases hlow : hex4? g1 g2 g3 g4 with
                        | none => rw [hlow] at h; exact Option.noConfusion h
                        | some low =>
                          rw [hlow] at h
                          simp only at h
                          split at h
                          · rename_i hlowr
                            cases hs : scanString n rest4 with
                            | none => rw [hs] at h; exact Option.noConfusion h
                            | some p =>
                              obtain ⟨cs4, r4⟩ := p
                              rw [hs] at h
                              simp only [Option.some.injEq, Prod.mk.injEq] at h
                              obtain ⟨hcs, hr⟩ := h
                              rw [hr] at hs
                              obtain ⟨c4, hdec, hre⟩ := ih rest4 cs4 r hs
                              refine ⟨'\\' :: 'u' :: h1 :: h2 :: h3 :: h4 ::
                                '\\' :: 'u' :: g1 :: g2 :: g3 :: g4 :: c4,
                                by simp [hdec], ?_⟩
                              intro n₂ r₂ hb₂
                              obtain ⟨m, rfl⟩ : ∃ m, n₂ = m + 1 := ⟨n₂ - 1, by omega⟩
                              simp only [List.cons_append]
                              rw [← hcs]
                              exact scanString_build_surr m h1 h2 h3 h4 g1 g2 g3 g4
                                code low (c4 ++ r₂) r₂ cs4 hcode hhigh hlow hlowr
                                (hre m r₂ (by simp at hb₂ ⊢; omega))
                          · exact Option.noConfusion h
                      · exact Option.noConfusion h
                    · exact Option.noConfusion h
                  · rename_i hnh
                    split at h
                    · exact Option.noConfusion h
                    · rename_i hnl
                      cases hs : scanString n rest3 with
                      | none => rw [hs] at h; exact Option.noConfusion h
                      | some p =>
                        obtain ⟨cs3, r3⟩ := p
                        rw [hs] at h
                        simp only [Option.some.injEq, Prod.mk.injEq] at h
                        obtain ⟨hcs, hr⟩ := h
                        rw [hr] at hs
                        obtain ⟨c3, hdec, hre⟩ := ih rest3 cs3 r hs
                        refine ⟨'\\' :: 'u' :: h1 :: h2 :: h3 :: h4 :: c3,
                          by simp [hdec], ?_⟩
                        intro n₂ r₂ hb₂
                        obtain ⟨m, rfl⟩ : ∃ m, n₂ = m + 1 := ⟨n₂ - 1, by omega⟩
                        simp only [List.cons_append]
                        rw [← hcs]
                        exact scanString_build_uni m h1 h2 h3 h4 code (c3 ++ r₂) r₂
                          cs3 hcode hnh hnl
                          (hre m r₂ (by simp at hb₂ ⊢; omega))
              · exact Option.noConfusion h
            · rw [if_neg hu] at h
              cases hesc : escChar? e with
              | none => rw [hesc] at h; exact Option.noConfusion h
              | some ec =>
                rw [hesc] at h
                simp only at h
                cases hs : scanString n rest2 with
                | none => rw [hs] at h; exact Option.noConfusion h
                | some p =>
                  obtain ⟨cs2, r2⟩ := p
                  rw [hs] at h
                  simp only [Option.some.injEq, Prod.mk.injEq] at h
                  obtain ⟨hcs, hr⟩ := h
                  rw [hr] at hs
                  obtain ⟨c2, hdec, hre⟩ := ih rest2 cs2 r hs
                  refine ⟨'\\' :: e :: c2, by simp [hdec], ?_⟩
                  intro n₂ r₂ hb₂
                  obtain ⟨m, rfl⟩ : ∃ m, n₂ = m + 1 := ⟨n₂ - 1, by omega⟩
                  simp only [List.cons_append]
                  rw [← hcs]
                  exact scanString_build_esc m e ec (c2 ++ r₂) r₂ cs2 hu hesc
                    (hre m r₂ (by simp at hb₂ ⊢; omega))
        · rw [if_neg hbs] at h
          split at h
          · exact Option.noConfusion h
          · rename_i hlt
            cases hs : scanString n rest with
            | none => rw [hs] at h; exact Option.noConfusion h
            | some p =>
              obtain ⟨cs2, r2⟩ := p
              rw [hs] at h
              simp only [Option.some.injEq, Prod.mk.injEq] at h
              obtain ⟨hcs, hr⟩ := h
              rw [hr] at hs
              obtain ⟨c2, hdec, hre⟩ := ih rest cs2 r hs
              refine ⟨c0 :: c2, by simp [hdec], ?_⟩
              intro n₂ r₂ hb₂
              obtain ⟨m, rfl⟩ : ∃ m, n₂ = m + 1 := ⟨n₂ - 1, by omega⟩
              simp only [List.cons_append]
              rw [← hcs]
              exact scanString_build_char m c0 (c2 ++ r₂) r₂ cs2 hq hbs hlt
                (hre m r₂ (by simp at hb₂ ⊢; omega))

/-- Unpack the head condition `noExtO`. -/
theorem noExt_some (c : Char) (h : noExtO (some c) = true) :
    c.isDigit = false ∧ c ≠ '.' ∧ c ≠ 'e' ∧ c ≠ 'E' := by
  simp [noExtO, numContChar] at h
  exact ⟨h.1.1.1, h.1.1.2, h.1.2, h.2⟩

/-- The integer-part lexer consumes exactly its digits and never looks
past a non-digit. -/
theorem lexIntDigits_swap (s ip r : List Char)
    (h : lexIntDigits s = some (ip, r)) :
    s = ip ++ r ∧ ip ≠ [] ∧ (∀ x ∈ ip, x.isDigit = true) ∧
    ∀ r₂, (∀ x, r₂.head? = some x → x.isDigit = false) →
      lexIntDigits (ip ++ r₂) = some (ip, r₂) := by
  cases s with
  | nil => exact Option.noConfusion h
  | cons c0 rest =>
    rw [lexIntDigits.eq_def] at h
    simp only at h
    by_cases h0 : c0 = '0'
    · rw [if_pos h0] at h
      obtain ⟨hip, hr⟩ := Prod.mk.inj (Option.some.inj h)
      subst h0
      refine ⟨by rw [← hip, ← hr]; rfl, by rw [← hip]; simp, ?_, ?_⟩
      · intro x hx
        rw [← hip] at hx
        simp at hx
        subst hx
        decide
      · intro r₂ _
        rw [← hip]
        rw [lexIntDigits.eq_def]
        simp
    · rw [if_neg h0] at h
      by_cases hd : c0.isDigit
      · rw [if_pos hd] at h
        obtain ⟨hip, hr⟩ := Prod.mk.inj (Option.some.inj h)
        refine ⟨?_, by rw [← hip]; simp, ?_, ?_⟩
        · rw [← hip, ← hr]
          simp [List.takeWhile_append_dropWhile]
        · intro x hx
          rw [← hip] at hx
          simp at hx
          rcases hx with rfl | hx
          · exact hd
          · exact mem_takeWhile_p _ _ _ hx
        · intro r₂ hnd
          rw [← hip]
          simp only [List.cons_append]
          rw [lexIntDigits.eq_def]
          simp only
          rw [if_neg h0, if_pos hd]
          rw [takeWhile_app_eq Char.isDigit _ r₂
              (fun y hy => mem_takeWhile_p _ _ _ hy) hnd,
            dropWhile_app_eq Char.isDigit _ r₂
              (fun y hy => mem_takeWhile_p _ _ _ hy) hnd]
      · rw [if_neg hd] at h
        exact Option.noConfusion h

/-- The fraction lexer consumes nothing when the text does not start
with a dot. -/
theorem lexFrac_stop (t : List Char)
    (hnd : ∀ x, t.head? = some x → ¬ x = '.') : lexFrac t = ([], t) := by
  cases t with
  | nil => rfl
  | cons c r => simp [lexFrac, hnd c rfl]

/-- What a successful fraction parse consumed. -/
theorem lexFrac_inv (s fp r : List Char) (h : lexFrac s = (fp, r)) :
    s = fp ++ r ∧ (fp = [] ∨ ∃ ds, fp = '.' :: ds ∧ ds ≠ [] ∧
      ∀ x ∈ ds, x.isDigit = true) := by
  cases s with
  | nil =>
    obtain ⟨h1, h2⟩ := Prod.mk.inj h
    exact ⟨by rw [← h1, ← h2]; simp, Or.inl h1.symm⟩
  | cons c0 rest =>
    rw [lexFrac.eq_def] at h
    simp only at h
    by_cases hdot : c0 = '.'
    · rw [if_pos hdot] at h
      by_cases hemp : rest.takeWhile Char.isDigit = []
      · rw [if_pos hemp] at h
        obtain ⟨h1, h2⟩ := Prod.mk.inj h
        exact ⟨by rw [← h1, ← h2]; simp, Or.inl h1.symm⟩
      · rw [if_neg hemp] at h
        obtain ⟨h1, h2⟩ := Prod.mk.inj h
        subst hdot
        refine ⟨?_, Or.inr ⟨rest.takeWhile Char.isDigit, h1.symm, hemp, ?_⟩⟩
        · rw [← h1, ← h2]
          simp [List.takeWhile_append_dropWhile]
        · intro x hx
          exact mem_takeWhile_p _ _ _ hx
    · rw [if_neg hdot] at h
      obtain ⟨h1, h2⟩ := Prod.mk.inj h
      exact ⟨by rw [← h1, ← h2]; simp, Or.inl h1.symm⟩

/-- Rebuild a consumed fraction in front of any text not starting with a
digit. -/
theorem lexFrac_build (ds r₂ : List Char) (hne : ds ≠ [])
    (hds : ∀ x ∈ ds, x.isDigit = true)
    (hnd : ∀ x, r₂.head? = some x → x.isDigit = false) :
    lexFrac ('.' :: (ds ++ r₂)) = ('.' :: ds, r₂) := by
  rw [lexFrac.eq_def]
  simp only
  rw [if_pos trivial]
  rw [takeWhile_app_eq Char.isDigit ds r₂ hds hnd,
    dropWhile_app_eq Char.isDigit ds r₂ hds hnd]
  rw [if_neg hne]

/-- The exponent lexer consumes nothing when the text does not start
with an exponent marker. -/
theorem lexExp_stop (t : List Char)
    (hne : ∀ x, t.head? = some x → ¬ (x = 'e' ∨ x = 'E')) :
    lexExp t = ([], t) := by
  cases t with
  | nil => rfl
  | cons c r => simp [lexExp, hne c rfl]

/-- What a successful exponent parse consumed. -/
theorem lexExp_inv (s ep r : List Char) (h : lexExp s = (ep, r)) :
    s = ep ++ r ∧ (ep = [] ∨ ∃ e0 sg ds, ep = e0 :: (sg ++ ds)
      ∧ (e0 = 'e' ∨ e0 = 'E') ∧ (sg = [] ∨ sg = ['+'] ∨ sg = ['-'])
      ∧ ds ≠ [] ∧ ∀ x ∈ ds, x.isDigit = true) := by
  cases s with
  | nil =>
    obtain ⟨h1, h2⟩ := Prod.mk.inj h
    exact ⟨by rw [← h1, ← h2]; simp, Or.inl h1.symm⟩
  | cons c0 rest =>
    rw [lexExp.eq_def] at h
    simp only at h
    by_cases hee : c0 = 'e' ∨ c0 = 'E'
    · rw [if_pos hee] at h
      cases rest with
      | nil =>
        obtain ⟨h1, h2⟩ := Prod.mk.inj h
        exact ⟨by rw [← h1, ← h2]; simp, Or.inl h1.symm⟩
      | cons c2 rr =>
        simp only at h
        by_cases hsg : c2 = '+' ∨ c2 = '-'
        · rw [if_pos hsg] at h
          by_cases hemp : rr.takeWhile Char.isDigit = []
          · rw [if_pos hemp] at h
            obtain ⟨h1, h2⟩ := Prod.mk.inj h
            exact ⟨by rw [← h1, ← h2]; simp, Or.inl h1.symm⟩
          · rw [if_neg hemp] at h
            obtain ⟨h1, h2⟩ := Prod.mk.inj h
            refine ⟨?_, Or.inr ⟨c0, [c2], rr.takeWhile Char.isDigit, ?_, hee, ?_,
              hemp, fun x hx => mem_takeWhile_p _ _ _ hx⟩⟩
            · rw [← h1, ← h2]
              simp [List.takeWhile_append_dropWhile]
            · rw [← h1]
              simp
            · rcases hsg with rfl | rfl
              · exact Or.inr (Or.inl rfl)
              · exact Or.inr (Or.inr rfl)
        · rw [if_neg hsg] at h
          by_cases hemp : (c2 :: rr).takeWhile Char.isDigit = []
          · rw [if_pos hemp] at h
            obtain ⟨h1, h2⟩ := Prod.mk.inj h
            exact ⟨by rw [← h1, ← h2]; simp, Or.inl h1.symm⟩
          · rw [if_neg hemp] at h
            obtain ⟨h1, h2⟩ := Prod.mk.inj h
            refine ⟨?_, Or.inr ⟨c0, [], (c2 :: rr).takeWhile Char.isDigit,
              by rw [← h1]; simp, hee, Or.inl rfl, hemp,
              fun x hx => mem_takeWhile_p _ _ _ hx⟩⟩
            rw [← h1, ← h2]
            simp [List.takeWhile_append_dropWhile]
    · rw [if_neg hee] at h
      obtain ⟨h1, h2⟩ := Prod.mk.inj h
      exact ⟨by rw [← h1, ← h2]; simp, Or.inl h1.symm⟩

/-- Rebuild a consumed exponent in front of any text not starting with a
digit. -/
theorem lexExp_build (e0 : Char) (sg ds r₂ : List Char)
    (hee : e0 = 'e' ∨ e0 = 'E') (hsg : sg = [] ∨ sg = ['+'] ∨ sg = ['-'])
    (hne : ds ≠ []) (hds : ∀ x ∈ ds, x.isDigit = true)
    (hnd : ∀ x, r₂.head? = some x → x.isDigit = false) :
    lexExp (e0 :: (sg ++ (ds ++ r₂))) = (e0 :: (sg ++ ds), r₂) := by
  obtain ⟨d0, ds', rfl⟩ : ∃ d0 ds', ds = d0 :: ds' := by
    cases ds with
    | nil => exact absurd rfl hne
    | cons a b => exact ⟨a, b, rfl⟩
  have hd0 : d0.isDigit = true := hds d0 (by simp)
  have hd0ne : ¬ (d0 = '+' ∨ d0 = '-') := by
    rintro (rfl | rfl) <;> simp at hd0
  rcases hsg with rfl | rfl | rfl
  · rw [lexExp.eq_def]
    simp only [List.nil_append, List.cons_append]
    rw [if_pos hee]
    rw [if_neg hd0ne]
    rw [show d0 :: (ds' ++ r₂) = (d0 :: ds') ++ r₂ from rfl]
    rw [takeWhile_app_eq Char.isDigit _ r₂ hds hnd,
      dropWhile_app_eq Char.isDigit _ r₂ hds hnd]
    rw [if_neg hne]
  · rw [lexExp.eq_def]
    simp only [List.cons_append, List.nil_append]
    rw [if_pos hee]
    rw [if_pos (Or.inl trivial)]
    rw [show d0 :: (ds' ++ r₂) = (d0 :: ds') ++ r₂ from rfl]
    rw [takeWhile_app_eq Char.isDigit _ r₂ hds hnd,
      dropWhile_app_eq Char.isDigit _ r₂ hds hnd]
    rw [if_neg hne]
  · rw [lexExp.eq_def]
    simp only [List.cons_append, List.nil_append]
    rw [if_pos hee]
    rw [if_pos (Or.inr trivial)]
    rw [show d0 :: (ds' ++ r₂) = (d0 :: ds') ++ r₂ from rfl]
    rw [takeWhile_app_eq Char.isDigit _ r₂ hds hnd,
      dropWhile_app_eq Char.isDigit _ r₂ hds hnd]
    rw [if_neg hne]

/-- Head condition for the text behind a number's integer part: a dot
(only when a fraction follows), an exponent marker (only when an
exponent follows), or the trailing text's head, which can never be a
digit. -/
theorem numTail_first_not_digit (fp ep r₂ : List Char)
    (hfp : fp = [] ∨ ∃ ds, fp = '.' :: ds ∧ ds ≠ [] ∧ ∀ x ∈ ds, x.isDigit = true)
    (hep : ep = [] ∨ ∃ e0 sg ds, ep = e0 :: (sg ++ ds)
      ∧ (e0 = 'e' ∨ e0 = 'E') ∧ (sg = [] ∨ sg = ['+'] ∨ sg = ['-'])
      ∧ ds ≠ [] ∧ ∀ x ∈ ds, x.isDigit = true)
    (hnd : ∀ x, r₂.head? = some x → x.isDigit = false) :
    ∀ x, (fp ++ (ep ++ r₂)).head? = some x → x.isDigit = false := by
  intro x hx
  rcases hfp with rfl | ⟨ds, rfl, _, _⟩
  · rcases hep with rfl | ⟨e0, sg, ds, rfl, hee, _, _, _⟩
    · exact hnd x (by simpa using hx)
    · simp at hx
      rcases hee with rfl | rfl <;> rw [← hx] <;> decide
  · simp at hx
    rw [← hx]
    decide

/-- The number lexer consumes exactly its lexeme, the lexeme starts with
a digit or a minus sign followed by a digit, and any trailing text whose
head cannot extend a number token can be replaced freely. -/
theorem lexNumber_swap (s lx r : List Char) (h : lexNumber s = some (lx, r)) :
    s = lx ++ r ∧
    ((∃ d t0, lx = d :: t0 ∧ d.isDigit = true) ∨
     (∃ d t0, lx = '-' :: d :: t0 ∧ d.isDigit = true)) ∧
    ∀ r₂, noExtO r₂.head? = true → lexNumber (lx ++ r₂) = some (lx, r₂) := by
  have main : ∀ (sign s2 : List Char), (sign = [] ∨ sign = ['-']) →
      (match lexIntDigits s2 with
        | none => none
        | some (ip, r1) =>
          some (sign ++ ip ++ (lexFrac r1).1 ++ (lexExp (lexFrac r1).2).1,
            (lexExp (lexFrac r1).2).2)) = some (lx, r) →
      s2 = (lx.drop sign.length) ++ r ∧
      (∃ d t0, lx.drop sign.length = d :: t0 ∧ d.isDigit = true) ∧
      lx.take sign.length = sign ∧
      ∀ r₂, noExtO r₂.head? = true →
        (match lexIntDigits ((lx.drop sign.length) ++ r₂) with
          | none => none
          | some (ip, r1) =>
            some (sign ++ ip ++ (lexFrac r1).1 ++ (lexExp (lexFrac r1).2).1,
              (lexExp (lexFrac r1).2).2)) = some (sign ++ lx.drop sign.length, r₂) := by
    intro sign s2 hsign hm
    cases hint : lexIntDigits s2 with
    | none => rw [hint] at hm; exact Option.noConfusion hm
    | some p =>
      obtain ⟨ip, r1⟩ := p
      rw [hint] at hm
      simp only [Option.some.injEq, Prod.mk.injEq] at hm
      obtain ⟨hlx, hr⟩ := hm
      cases hfr : lexFrac r1 with
      | mk fp r2 =>
        rw [hfr] at hlx hr
        cases hex : lexExp r2 with
        | mk ep r3 =>
          simp only at hlx hr
          rw [hex] at hlx hr
          simp only at hlx hr
          obtain ⟨hd1, hipne, hipd, hib⟩ := lexIntDigits_swap s2 ip r1 hint
          obtain ⟨hd2, hfp⟩ := lexFrac_inv r1 fp r2 hfr
          obtain ⟨hd3, hep⟩ := lexExp_inv r2 ep r3 hex
          obtain ⟨d, t0, rfl⟩ : ∃ d t0, ip = d :: t0 := by
            cases ip with
            | nil => exact absurd rfl hipne
            | cons a b => exact ⟨a, b, rfl⟩
          have hdrop : lx.drop sign.length = (d :: t0) ++ fp ++ ep := by
            rw [← hlx]
            rcases hsign with rfl | rfl <;> simp
          have htake : lx.take sign.length = sign := by
            rw [← hlx]
            rcases hsign with rfl | rfl <;> simp
          subst hr
          refine ⟨?_, ⟨d, t0 ++ fp ++ ep, by simp [hdrop], hipd d (by simp)⟩,
            htake, ?_⟩
          · rw [hdrop, hd1, hd2, hd3]
            simp
          · intro r₂ hno
            have hnd₂ : ∀ x, r₂.head? = some x → x.isDigit = false :=
              fun x hx => (noExt_some x (hx ▸ hno)).1
            have hndfe := numTail_first_not_digit fp ep r₂ hfp hep hnd₂
            have hfe : (d :: t0) ++ fp ++ ep ++ r₂
                = (d :: t0) ++ (fp ++ (ep ++ r₂)) := by simp
            rw [hdrop, hfe, hib (fp ++ (ep ++ r₂)) hndfe]
            have hfr₂ : lexFrac (fp ++ (ep ++ r₂)) = (fp, ep ++ r₂) := by
              rcases hfp with rfl | ⟨ds, rfl, hdsne, hdsd⟩
              · refine lexFrac_stop (ep ++ r₂) ?_
                intro x hx
                rcases hep with rfl | ⟨e0, sg, ds, rfl, hee, _, _, _⟩
                · have hx' : r₂.head? = some x := by simpa using hx
                  exact (noExt_some x (hx' ▸ hno)).2.1
                · simp at hx
                  rcases hee with rfl | rfl <;> rw [← hx] <;> decide
              · have : ∀ x, (ep ++ r₂).head? = some x → x.isDigit = false := by
                  intro x hx
                  rcases hep with rfl | ⟨e0, sg, ds2, rfl, hee, _, _, _⟩
                  · exact hnd₂ x (by simpa using hx)
                  · simp at hx
                    rcases hee with rfl | rfl <;> rw [← hx] <;> decide
                simpa using lexFrac_build ds (ep ++ r₂) hdsne hdsd this
            have hex₂ : lexExp (ep ++ r₂) = (ep, r₂) := by
              rcases hep with rfl | ⟨e0, sg, ds2, rfl, hee, hsg, hdsne, hdsd⟩
              · refine lexExp_stop r₂ ?_
                intro x hx hcon
                have h4 := noExt_some x (hx ▸ hno)
                rcases hcon with rfl | rfl
                · exact absurd rfl h4.2.2.1
                · exact absurd rfl h4.2.2.2
              · simpa using lexExp_build e0 sg ds2 r₂ hee hsg hdsne hdsd hnd₂
            simp only
            rw [hfr₂]
            simp only
            rw [hex₂]
            simp
  cases s with
  | nil => exact Option.noConfusion h
  | cons c0 rest =>
    by_cases hm : c0 = '-'
    · subst hm
      have hunf : lexNumber ('-' :: rest)
          = (match lexIntDigits rest with
             | none => none
             | some (ip, r1) =>
               some (['-'] ++ ip ++ (lexFrac r1).1 ++ (lexExp (lexFrac r1).2).1,
                 (lexExp (lexFrac r1).2).2)) := by
        rw [lexNumber.eq_def]
        simp
      rw [hunf] at h
      obtain ⟨hdec, hshape, htake, hre⟩ := main ['-'] rest (Or.inr rfl) h
      obtain ⟨d, t0, hdt, hdig⟩ := hshape
      have hlxfull : lx = '-' :: (d :: t0 ++ (lx.drop 1).drop (d :: t0).length) := by
        have := htake
        cases lx with
        | nil => simp at htake
        | cons a b =>
          simp at htake
          subst htake
          simp only [List.drop] at hdt ⊢
          rw [hdt]
          simp
      refine ⟨?_, Or.inr ⟨d, t0 ++ (lx.drop 1).drop (d :: t0).length, hlxfull, hdig⟩, ?_⟩
      · have : rest = lx.drop 1 ++ r := hdec
        cases lx with
        | nil => simp at htake
        | cons a b =>
          simp at htake
          subst htake
          simp only [List.drop] at this
          rw [this]
          rfl
      · intro r₂ hno
        cases lx with
        | nil => simp at htake
        | cons a b =>
          simp at htake
          subst htake
          have hunf₂ : lexNumber (('-' :: b) ++ r₂)
              = (match lexIntDigits (b ++ r₂) with
                 | none => none
                 | some (ip, r1) =>
                   some (['-'] ++ ip ++ (lexFrac r1).1 ++ (lexExp (lexFrac r1).2).1,
                     (lexExp (lexFrac r1).2).2)) := by
            rw [lexNumber.eq_def]
            simp
          rw [hunf₂]
          have := hre r₂ hno
          simp only [List.drop] at this
          simpa using this
    · have hunf : lexNumber (c0 :: rest)
          = (match lexIntDigits (c0 :: rest) with
             | none => none
             | some (ip, r1) =>
               some ([] ++ ip ++ (lexFrac r1).1 ++ (lexExp (lexFrac r1).2).1,
                 (lexExp (lexFrac r1).2).2)) := by
        rw [lexNumber.eq_def]
        simp [hm]
      rw [hunf] at h
      obtain ⟨hdec, hshape, _, hre⟩ := main [] (c0 :: rest) (Or.inl rfl) h
      simp only [List.drop] at hdec hshape hre
      refine ⟨hdec, Or.inl hshape, ?_⟩
      intro r₂ hno
      obtain ⟨d, t0, hdt, hdig⟩ := hshape
      have hlxne : lx ≠ [] := by rw [hdt]; simp
      have hd0 : lx.head? = some d := by rw [hdt]; rfl
      have hunf₂ : lexNumber (lx ++ r₂)
          = (match lexIntDigits (lx ++ r₂) with
             | none => none
             | some (ip, r1) =>
               some ([] ++ ip ++ (lexFrac r1).1 ++ (lexExp (lexFrac r1).2).1,
                 (lexExp (lexFrac r1).2).2)) := by
        rw [hdt]
        rw [lexNumber.eq_def]
        have : ¬ (d = '-') := by
          intro hcon
          rw [hcon] at hdig
          simp at hdig
        simp [this]
      rw [hunf₂]
      have := hre r₂ hno
      simpa using this

/-- What `expectChars` accepts is exactly the expected run as a prefix. -/
theorem expectChars_inv : ∀ (lit s r : List Char),
    expectChars lit s = some r → s = lit ++ r := by
  intro lit
  induction lit with
  | nil =>
    intro s r h
    rw [expectChars] at h
    rw [← Option.some.inj h]
    rfl
  | cons c cs ih =>
    intro s r h
    rw [expectChars.eq_def] at h
    cases s with
    | nil => exact Option.noConfusion h
    | cons x xs =>
      simp only at h
      by_cases hx : x = c
      · rw [if_pos hx] at h
        subst hx
        rw [List.cons_append]
        rw [← ih xs r h]
      · rw [if_neg hx] at h
        exact Option.noConfusion h

/-- `expectChars` succeeds on its expected run followed by anything. -/
theorem expectChars_build : ∀ (lit t : List Char),
    expectChars lit (lit ++ t) = some t := by
  intro lit
  induction lit with
  | nil => intro t; rfl
  | cons c cs ih =>
    intro t
    rw [List.cons_append, expectChars.eq_def]
    simp [ih]

/-- A value's first character is never whitespace (contrapositive form). -/
theorem valueStart_not_ws (c : Char) (h : valueStartChar c = true) :
    jsonWsChar c = false := by
  by_cases hw : jsonWsChar c = true
  · rw [ws_not_valueStart c hw] at h
    exact absurd h (by simp)
  · simpa using hw

/-- A value's first character is never a closing bracket. -/
theorem valueStart_ne_rbracket (c : Char) (h : valueStartChar c = true) :
    ¬ c = ']' := by
  intro hc
  rw [hc] at h
  exact absurd h (by decide)

/-- A digit is distinct from every dispatch character of the scanner. -/
theorem digit_ne_special (d : Char) (h : d.isDigit = true) :
    ¬ d = '"' ∧ ¬ d = '{' ∧ ¬ d = '[' ∧ ¬ d = 'n' ∧ ¬ d = 't' ∧
      ¬ d = 'f' ∧ ¬ d = 'N' ∧ ¬ d = 'I' ∧ ¬ d = '-' := by
  refine ⟨?_, ?_, ?_, ?_, ?_, ?_, ?_, ?_, ?_⟩ <;>
    exact fun hc => absurd h (by rw [hc]; decide)

/-- A digit satisfies the value-start predicate. -/
theorem digit_valueStart (d : Char) (h : d.isDigit = true) :
    valueStartChar d = true := by
  simp [valueStartChar, h]

/-- Skipping whitespace over a whitespace span stops at a non-whitespace
character. -/
theorem skipWs_app_cons (w : List Char) (x : Char) (t : List Char)
    (hw : ∀ a ∈ w, jsonWsChar a = true)
    (hx : jsonWsChar x = false) :
    skipWs (w ++ x :: t) = x :: t := by
  refine dropWhile_app_eq jsonWsChar w (x :: t) hw ?_
  intro c hc
  simp only [List.head?_cons, Option.some.injEq] at hc
  rw [← hc]
  exact hx

/-- Skipping whitespace over a whitespace span stops at a value's first
character. -/
theorem skipWs_app_val (w cv b : List Char) (h₀ : Char) (c' : List Char)
    (hw : ∀ a ∈ w, jsonWsChar a = true)
    (hcv : cv = h₀ :: c')
    (hv : valueStartChar h₀ = true) :
    skipWs (w ++ (cv ++ b)) = cv ++ b := by
  refine dropWhile_app_eq jsonWsChar w (cv ++ b) hw ?_
  intro c hc
  rw [hcv] at hc
  simp only [List.cons_append, List.head?_cons, Option.some.injEq] at hc
  rw [← hc]
  exact valueStart_not_ws h₀ hv

/-- Skipping whitespace over nothing but whitespace leaves nothing. -/
theorem skipWs_all (w : List Char) (hw : ∀ a ∈ w, jsonWsChar a = true) :
    skipWs w = [] := by
  induction w with
  | nil => rfl
  | cons a as ih =>
    rw [skipWs, List.dropWhile_cons]
    rw [hw a (by simp)]
    simp only [if_true]
    exact ih fun x hx => hw x (by simp [hx])

/-- A whitespace span followed by a non-extending character cannot extend
a number token at its head. -/
theorem noExt_ws_app (w : List Char) (x : Char) (t : List Char)
    (hw : ∀ a ∈ w, jsonWsChar a = true)
    (hx : numContChar x = false) :
    noExtO ((w ++ x :: t).head?) = true := by
  cases w with
  | nil => simp [noExtO, hx]
  | cons a as =>
    have ha := jsonWs_noExt a (hw a (by simp))
    simp [noExtO, ha]

/-- A whitespace span alone (or nothing at all) cannot extend a number
token at its head. -/
theorem noExt_ws_only (w : List Char) (hw : ∀ a ∈ w, jsonWsChar a = true) :
    noExtO w.head? = true := by
  cases w with
  | nil => rfl
  | cons a as =>
    have ha := jsonWs_noExt a (hw a (by simp))
    simp [noExtO, ha]

/-- Decompose a text around its whitespace-skipped tail. -/
theorem skipWs_decomp (s b : List Char) (h : skipWs s = b) :
    s = s.takeWhile jsonWsChar ++ b ∧
      ∀ a ∈ s.takeWhile jsonWsChar, jsonWsChar a = true := by
  have hx : s.takeWhile jsonWsChar ++ s.dropWhile jsonWsChar = s :=
    List.takeWhile_append_dropWhile jsonWsChar s
  refine ⟨?_, fun a ha => mem_takeWhile_p jsonWsChar s a ha⟩
  rw [← h, skipWs]
  exact hx.symm

/-- Rebuild a string value. -/
theorem parseVal_build_str (m : Nat) (t r cs : List Char)
    (hs : scanString m t = some (cs, r)) :
    parseVal (m + 1) ('"' :: t) = some (.str (String.mk cs), r) := by
  rw [parseVal.eq_def]
  simp [hs]

/-- Rebuild an empty object. -/
theorem parseVal_build_obj0 (m : Nat) (t r : List Char)
    (hsk : skipWs t = '}' :: r) :
    parseVal (m + 1) ('{' :: t) = some (.obj [], r) := by
  rw [parseVal.eq_def]
  simp [hsk]

/-- Rebuild a nonempty object from its member parse. -/
theorem parseVal_build_obj (m : Nat) (t rr : List Char) (v : JsonValue)
    (r : List Char)
    (hsk : skipWs t = '"' :: rr)
    (hm : parseMembers m rr [] = some (v, r)) :
    parseVal (m + 1) ('{' :: t) = some (v, r) := by
  rw [parseVal.eq_def]
  simp [hsk, hm]

/-- Rebuild an empty array. -/
theorem parseVal_build_arr0 (m : Nat) (t r : List Char)
    (hsk : skipWs t = ']' :: r) :
    parseVal (m + 1) ('[' :: t) = some (.arr [], r) := by
  rw [parseVal.eq_def]
  simp [hsk]

/-- Rebuild a nonempty array from its element parse. -/
theorem parseVal_build_arr (m : Nat) (t : List Char) (h₀ : Char)
    (s1 : List Char) (v : JsonValue) (r : List Char)
    (hsk : skipWs t = h₀ :: s1)
    (hne : ¬ h₀ = ']')
    (he : parseElems m (h₀ :: s1) [] = some (v, r)) :
    parseVal (m + 1) ('[' :: t) = some (v, r) := by
  rw [parseVal.eq_def]
  simp [hsk]
  split
  · rename_i r' heq
    injection heq with hh ht
    exact absurd hh hne
  · exact he

/-- Rebuild a `null` literal. -/
theorem parseVal_build_null (m : Nat) (r : List Char) :
    parseVal (m + 1) ('n' :: 'u' :: 'l' :: 'l' :: r) = some (.null, r) := by
  rw [parseVal.eq_def]
  simp [expectChars]

/-- Rebuild a `true` literal. -/
theorem parseVal_build_true (m : Nat) (r : List Char) :
    parseVal (m + 1) ('t' :: 'r' :: 'u' :: 'e' :: r)
      = some (.bool true, r) := by
  rw [parseVal.eq_def]
  simp [expectChars]

/-- Rebuild a `false` literal. -/
theorem parseVal_build_false (m : Nat) (r : List Char) :
    parseVal (m + 1) ('f' :: 'a' :: 'l' :: 's' :: 'e' :: r)
      = some (.bool false, r) := by
  rw [parseVal.eq_def]
  simp [expectChars]

/-- Rebuild a `NaN` literal. -/
theorem parseVal_build_nan (m : Nat) (r : List Char) :
    parseVal (m + 1) ('N' :: 'a' :: 'N' :: r) = some (.num "NaN", r) := by
  rw [parseVal.eq_def]
  simp [expectChars]

/-- Rebuild an `Infinity` literal. -/
theorem parseVal_build_inf (m : Nat) (r : List Char) :
    parseVal (m + 1)
        ('I' :: 'n' :: 'f' :: 'i' :: 'n' :: 'i' :: 't' :: 'y' :: r)
      = some (.num "Infinity", r) := by
  rw [parseVal.eq_def]
  simp [expectChars]

/-- Rebuild a `-Infinity` literal. -/
theorem parseVal_build_ninf (m : Nat) (r : List Char) :
    parseVal (m + 1)
        ('-' :: 'I' :: 'n' :: 'f' :: 'i' :: 'n' :: 'i' :: 't' :: 'y' :: r)
      = some (.num "-Infinity", r) := by
  rw [parseVal.eq_def]
  simp [expectChars]

/-- Rebuild a number starting with a digit. -/
theorem parseVal_build_num (m : Nat) (h₀ : Char) (t r lx : List Char)
    (hd : h₀.isDigit = true)
    (hl : lexNumber (h₀ :: t) = some (lx, r)) :
    parseVal (m + 1) (h₀ :: t) = some (.num (String.mk lx), r) := by
  obtain ⟨n1, n2, n3, n4, n5, n6, n7, n8, n9⟩ := digit_ne_special h₀ hd
  rw [parseVal.eq_def]
  simp [n1, n2, n3, n4, n5, n6, n7, n8, n9, hl]

/-- Rebuild a number starting with a sign and a digit. -/
theorem parseVal_build_negnum (m : Nat) (d : Char) (t r lx : List Char)
    (hd : d.isDigit = true)
    (hl : lexNumber ('-' :: d :: t) = some (lx, r)) :
    parseVal (m + 1) ('-' :: d :: t) = some (.num (String.mk lx), r) := by
  have hdI : ¬ d = 'I' := (digit_ne_special d hd).2.2.2.2.2.2.2.1
  rw [parseVal.eq_def]
  simp [expectChars, hdI, hl]

/-- Rebuild an object's final member. -/
theorem parseMembers_build_last (m : Nat) (s key s1 s2 : List Char)
    (v : JsonValue) (s3 r : List Char) (acc : List (String × JsonValue))
    (hk : scanString m s = some (key, s1))
    (h1 : skipWs s1 = ':' :: s2)
    (hv : parseVal m (skipWs s2) = some (v, s3))
    (h3 : skipWs s3 = '}' :: r) :
    parseMembers (m + 1) s acc
      = some (.obj (acc ++ [(String.mk key, v)]), r) := by
  rw [parseMembers.eq_def]
  simp [hk, h1, hv, h3]

/-- Rebuild an object member followed by more members. -/
theorem parseMembers_build_step (m : Nat) (s key s1 s2 : List Char)
    (v : JsonValue) (s3 s4 s5 : List Char)
    (acc : List (String × JsonValue)) (res : JsonValue) (r : List Char)
    (hk : scanString m s = some (key, s1))
    (h1 : skipWs s1 = ':' :: s2)
    (hv : parseVal m (skipWs s2) = some (v, s3))
    (h3 : skipWs s3 = ',' :: s4)
    (h4 : skipWs s4 = '"' :: s5)
    (hrec : parseMembers m s5 (acc ++ [(String.mk key, v)]) = some (res, r)) :
    parseMembers (m + 1) s acc = some (res, r) := by
  rw [parseMembers.eq_def]
  simp [hk, h1, hv, h3, h4, hrec]

/-- Rebuild an array's final element. -/
theorem parseElems_build_last (m : Nat) (s : List Char) (v : JsonValue)
    (s1 r : List Char) (acc : List JsonValue)
    (hv : parseVal m s = some (v, s1))
    (h1 : skipWs s1 = ']' :: r) :
    parseElems (m + 1) s acc = some (.arr (acc ++ [v]), r) := by
  rw [parseElems.eq_def]
  simp [hv, h1]

/-- Rebuild an array element followed by more elements. -/
theorem parseElems_build_step (m : Nat) (s : List Char) (v : JsonValue)
    (s1 s2 : List Char) (acc : List JsonValue) (res : JsonValue)
    (r : List Char)
    (hv : parseVal m s = some (v, s1))
    (h1 : skipWs s1 = ',' :: s2)
    (hrec : parseElems m (skipWs s2) (acc ++ [v]) = some (res, r)) :
    parseElems (m + 1) s acc = some (res, r) := by
  rw [parseElems.eq_def]
  simp [hv, h1, hrec]


/-- No parser of the scanner ever looks past the span it consumed,
except for the number lexer's one-character lookahead: a successful parse
fixes a consumed span, and replaying the parser on that span followed by
any trailing text whose head cannot extend a number token gives the same
value, under any fuel exceeding the span's length. -/
theorem parse_swap : ∀ n : Nat,
    (∀ s v r, parseVal n s = some (v, r) →
      ∃ c, s = c ++ r ∧
        (∃ h₀ c', c = h₀ :: c' ∧ valueStartChar h₀ = true) ∧
        ∀ (n₂ : Nat) (r₂ : List Char), noExtO r₂.head? = true →
          c.length < n₂ → parseVal n₂ (c ++ r₂) = some (v, r₂)) ∧
    (∀ s acc v r, parseMembers n s acc = some (v, r) →
      ∃ c, s = c ++ r ∧
        ∀ (n₂ : Nat) (r₂ : List Char), noExtO r₂.head? = true →
          c.length < n₂ → parseMembers n₂ (c ++ r₂) acc = some (v, r₂)) ∧
    (∀ s acc v r, parseElems n s acc = some (v, r) →
      ∃ c, s = c ++ r ∧
        (∃ h₀ c', c = h₀ :: c' ∧ valueStartChar h₀ = true) ∧
        ∀ (n₂ : Nat) (r₂ : List Char), noExtO r₂.head? = true →
          c.length < n₂ → parseElems n₂ (c ++ r₂) acc = some (v, r₂)) := by
  intro n
  induction n with
  | zero =>
    refine ⟨?_, ?_, ?_⟩
    · intro s v r h
      rw [parseVal.eq_def] at h
      exact Option.noConfusion h
    · intro s acc v r h
      rw [parseMembers.eq_def] at h
      exact Option.noConfusion h
    · intro s acc v r h
      rw [parseElems.eq_def] at h
      exact Option.noConfusion h
  | succ n ih =>
    obtain ⟨ihV, ihM, ihE⟩ := ih
    refine ⟨?_, ?_, ?_⟩
    · intro s v r h
      rw [parseVal.eq_def] at h
      simp only at h
      cases s with
      | nil => exact Option.noConfusion h
      | cons c0 rest =>
        simp only at h
        by_cases h1 : c0 = '"'
        · rw [if_pos h1] at h
          subst h1
          cases hs : scanString n rest with
          | none => rw [hs] at h; exact Option.noConfusion h
          | some p =>
            obtain ⟨cs, r1⟩ := p
            rw [hs] at h
            simp only [Option.map_some', Option.some.injEq, Prod.mk.injEq] at h
            obtain ⟨hv, hr⟩ := h
            rw [hr] at hs
            obtain ⟨cK, hdecK, hreK⟩ := scanString_swap n rest cs r hs
            refine ⟨'"' :: cK, by simp [hdecK], ⟨'"', cK, rfl, by decide⟩, ?_⟩
            intro n₂ r₂ hno hb
            obtain ⟨m, rfl⟩ : ∃ m, n₂ = m + 1 := ⟨n₂ - 1, by omega⟩
            rw [List.cons_append, ← hv]
            exact parseVal_build_str m (cK ++ r₂) r₂ cs
              (hreK m r₂ (by simp only [List.length_cons] at hb; omega))
        · rw [if_neg h1] at h
          by_cases h2 : c0 = '{'
          · rw [if_pos h2] at h
            subst h2
            split at h
            · rename_i r' heq
              simp only [Option.some.injEq, Prod.mk.injEq] at h
              obtain ⟨hv, hr⟩ := h
              rw [hr] at heq
              obtain ⟨hdecW, hwAll⟩ := skipWs_decomp rest _ heq
              refine ⟨'{' :: (rest.takeWhile jsonWsChar ++ ['}']),
                by (conv_lhs => rw [hdecW]); simp, ⟨'{', _, rfl, by decide⟩, ?_⟩
              intro n₂ r₂ hno hb
              obtain ⟨m, rfl⟩ : ∃ m, n₂ = m + 1 := ⟨n₂ - 1, by omega⟩
              have hass : ('{' :: (rest.takeWhile jsonWsChar ++ ['}'])) ++ r₂
                  = '{' :: (rest.takeWhile jsonWsChar ++ '}' :: r₂) := by simp
              rw [hass, ← hv]
              exact parseVal_build_obj0 m _ r₂
                (skipWs_app_cons _ '}' r₂ hwAll (by decide))
            · rename_i rr heq
              obtain ⟨cM, hdecM, hreM⟩ := ihM rr [] v r h
              obtain ⟨hdecW, hwAll⟩ := skipWs_decomp rest _ heq
              rw [hdecM] at hdecW
              refine ⟨'{' :: (rest.takeWhile jsonWsChar ++ '"' :: cM),
                by (conv_lhs => rw [hdecW]); simp, ⟨'{', _, rfl, by decide⟩, ?_⟩
              intro n₂ r₂ hno hb
              obtain ⟨m, rfl⟩ : ∃ m, n₂ = m + 1 := ⟨n₂ - 1, by omega⟩
              have hass : ('{' :: (rest.takeWhile jsonWsChar ++ '"' :: cM)) ++ r₂
                  = '{' :: (rest.takeWhile jsonWsChar ++ '"' :: (cM ++ r₂)) := by
                simp
              rw [hass]
              exact parseVal_build_obj m _ (cM ++ r₂) v r₂
                (skipWs_app_cons _ '"' (cM ++ r₂) hwAll (by decide))
                (hreM m r₂ hno (by
                  simp only [List.length_cons, List.length_append] at hb
                  omega))
            · exact Option.noConfusion h
          · rw [if_neg h2] at h
            by_cases h3 : c0 = '['
            · rw [if_pos h3] at h
              subst h3
              split at h
              · rename_i r' heq
                simp only [Option.some.injEq, Prod.mk.injEq] at h
                obtain ⟨hv, hr⟩ := h
                rw [hr] at heq
                obtain ⟨hdecW, hwAll⟩ := skipWs_decomp rest _ heq
                refine ⟨'[' :: (rest.takeWhile jsonWsChar ++ [']']),
                  by (conv_lhs => rw [hdecW]); simp, ⟨'[', _, rfl, by decide⟩, ?_⟩
                intro n₂ r₂ hno hb
                obtain ⟨m, rfl⟩ : ∃ m, n₂ = m + 1 := ⟨n₂ - 1, by omega⟩
                have hass : ('[' :: (rest.takeWhile jsonWsChar ++ [']'])) ++ r₂
                    = '[' :: (rest.takeWhile jsonWsChar ++ ']' :: r₂) := by simp
                rw [hass, ← hv]
                exact parseVal_build_arr0 m _ r₂
                  (skipWs_app_cons _ ']' r₂ hwAll (by decide))
              · rename_i s1 heq
                obtain ⟨cE, hdecE, ⟨e0, e', hcE, hval⟩, hreE⟩ :=
                  ihE (skipWs rest) [] v r h
                obtain ⟨hdecW, hwAll⟩ := skipWs_decomp rest _ hdecE
                refine ⟨'[' :: (rest.takeWhile jsonWsChar ++ cE),
                  by (conv_lhs => rw [hdecW]); simp, ⟨'[', _, rfl, by decide⟩, ?_⟩
                intro n₂ r₂ hno hb
                obtain ⟨m, rfl⟩ : ∃ m, n₂ = m + 1 := ⟨n₂ - 1, by omega⟩
                have hass : ('[' :: (rest.takeWhile jsonWsChar ++ cE)) ++ r₂
                    = '[' :: (rest.takeWhile jsonWsChar ++ (cE ++ r₂)) := by simp
                rw [hass]
                have hsk : skipWs (rest.takeWhile jsonWsChar ++ (cE ++ r₂))
                    = e0 :: (e' ++ r₂) := by
                  rw [skipWs_app_val _ cE r₂ e0 e' hwAll hcE hval, hcE]
                  rfl
                have he : parseElems m (e0 :: (e' ++ r₂)) [] = some (v, r₂) := by
                  have := hreE m r₂ hno (by
                    simp only [List.length_cons, List.length_append] at hb
                    omega)
                  rw [hcE] at this
                  simpa using this
                exact parseVal_build_arr m _ e0 (e' ++ r₂) v r₂ hsk
                  (valueStart_ne_rbracket e0 hval) he
            · rw [if_neg h3] at h
              by_cases h4 : c0 = 'n'
              · rw [if_pos h4] at h
                subst h4
                split at h
                · rename_i r' heq
                  simp only [Option.some.injEq, Prod.mk.injEq] at h
                  obtain ⟨hv, hr⟩ := h
                  rw [hr] at heq
                  have hdec := expectChars_inv _ rest r heq
                  refine ⟨['n', 'u', 'l', 'l'], by rw [hdec]; rfl,
                    ⟨'n', _, rfl, by decide⟩, ?_⟩
                  intro n₂ r₂ hno hb
                  obtain ⟨m, rfl⟩ : ∃ m, n₂ = m + 1 := ⟨n₂ - 1, by omega⟩
                  simp only [List.cons_append, List.nil_append]
                  rw [← hv]
                  exact parseVal_build_null m r₂
                · exact Option.noConfusion h
              · rw [if_neg h4] at h
                by_cases h5 : c0 = 't'
                · rw [if_pos h5] at h
                  subst h5
                  split at h
                  · rename_i r' heq
                    simp only [Option.some.injEq, Prod.mk.injEq] at h
                    obtain ⟨hv, hr⟩ := h
                    rw [hr] at heq
                    have hdec := expectChars_inv _ rest r heq
                    refine ⟨['t', 'r', 'u', 'e'], by rw [hdec]; rfl,
                      ⟨'t', _, rfl, by decide⟩, ?_⟩
                    intro n₂ r₂ hno hb
                    obtain ⟨m, rfl⟩ : ∃ m, n₂ = m + 1 := ⟨n₂ - 1, by omega⟩
                    simp only [List.cons_append, List.nil_append]
                    rw [← hv]
                    exact parseVal_build_true m r₂
                  · exact Option.noConfusion h
                · rw [if_neg h5] at h
                  by_cases h6 : c0 = 'f'
                  · rw [if_pos h6] at h
                    subst h6
                    split at h
                    · rename_i r' heq
                      simp only [Option.some.injEq, Prod.mk.injEq] at h
                      obtain ⟨hv, hr⟩ := h
                      rw [hr] at heq
                      have hdec := expectChars_inv _ rest r heq
                      refine ⟨['f', 'a', 'l', 's', 'e'], by rw [hdec]; rfl,
                        ⟨'f', _, rfl, by decide⟩, ?_⟩
                      intro n₂ r₂ hno hb
                      obtain ⟨m, rfl⟩ : ∃ m, n₂ = m + 1 := ⟨n₂ - 1, by omega⟩
                      simp only [List.cons_append, List.nil_append]
                      rw [← hv]
                      exact parseVal_build_false m r₂
                    · exact Option.noConfusion h
                  · rw [if_neg h6] at h
                    by_cases h7 : c0 = 'N'
                    · rw [if_pos h7] at h
                      subst h7
                      split at h
                      · rename_i r' heq
                        simp only [Option.some.injEq, Prod.mk.injEq] at h
                        obtain ⟨hv, hr⟩ := h
                        rw [hr] at heq
                        have hdec := expectChars_inv _ rest r heq
                        refine ⟨['N', 'a', 'N'], by rw [hdec]; rfl,
                          ⟨'N', _, rfl, by decide⟩, ?_⟩
                        intro n₂ r₂ hno hb
                        obtain ⟨m, rfl⟩ : ∃ m, n₂ = m + 1 := ⟨n₂ - 1, by omega⟩
                        simp only [List.cons_append, List.nil_append]
                        rw [← hv]
                        exact parseVal_build_nan m r₂
                      · exact Option.noConfusion h
                    · rw [if_neg h7] at h
                      by_cases h8 : c0 = 'I'
                      · rw [if_pos h8] at h
                        subst h8
                        split at h
                        · rename_i r' heq
                          simp only [Option.some.injEq, Prod.mk.injEq] at h
                          obtain ⟨hv, hr⟩ := h
                          rw [hr] at heq
                          have hdec := expectChars_inv _ rest r heq
                          refine ⟨['I', 'n', 'f', 'i', 'n', 'i', 't', 'y'],
                            by rw [hdec]; rfl, ⟨'I', _, rfl, by decide⟩, ?_⟩
                          intro n₂ r₂ hno hb
                          obtain ⟨m, rfl⟩ : ∃ m, n₂ = m + 1 := ⟨n₂ - 1, by omega⟩
                          simp only [List.cons_append, List.nil_append]
                          rw [← hv]
                          exact parseVal_build_inf m r₂
                        · exact Option.noConfusion h
                      · rw [if_neg h8] at h
                        by_cases h9 : c0 = '-'
                        · rw [if_pos h9] at h
                          subst h9
                          split at h
                          · rename_i r' heq
                            simp only [Option.some.injEq, Prod.mk.injEq] at h
                            obtain ⟨hv, hr⟩ := h
                            rw [hr] at heq
                            have hdec := expectChars_inv _ rest r heq
                            refine ⟨['-', 'I', 'n', 'f', 'i', 'n', 'i', 't', 'y'],
                              by rw [hdec]; rfl, ⟨'-', _, rfl, by decide⟩, ?_⟩
                            intro n₂ r₂ hno hb
                            obtain ⟨m, rfl⟩ : ∃ m, n₂ = m + 1 := ⟨n₂ - 1, by omega⟩
                            simp only [List.cons_append, List.nil_append]
                            rw [← hv]
                            exact parseVal_build_ninf m r₂
                          · rename_i heqn
                            cases hl : lexNumber ('-' :: rest) with
                            | none => rw [hl] at h; exact Option.noConfusion h
                            | some p =>
                              obtain ⟨lx, r1⟩ := p
                              rw [hl] at h
                              simp only [Option.map_some', Option.some.injEq,
                                Prod.mk.injEq] at h
                              obtain ⟨hv, hr⟩ := h
                              rw [hr] at hl
                              obtain ⟨hdec, hshape, hre⟩ := lexNumber_swap _ lx r hl
                              rcases hshape with ⟨d, t0, hlx, hd⟩ | ⟨d, t0, hlx, hd⟩
                              · subst hlx
                                simp only [List.cons_append] at hdec
                                injection hdec with hh ht
                                rw [← hh] at hd
                                exact absurd hd (by decide)
                              · subst hlx
                                refine ⟨'-' :: d :: t0, hdec,
                                  ⟨'-', d :: t0, rfl, by decide⟩, ?_⟩
                                intro n₂ r₂ hno hb
                                obtain ⟨m, rfl⟩ : ∃ m, n₂ = m + 1 :=
                                  ⟨n₂ - 1, by omega⟩
                                rw [← hv]
                                have hl₂ := hre r₂ hno
                                simp only [List.cons_append] at hl₂ ⊢
                                exact parseVal_build_negnum m d (t0 ++ r₂) r₂ _ hd hl₂
                        · rw [if_neg h9] at h
                          cases hl : lexNumber (c0 :: rest) with
                          | none => rw [hl] at h; exact Option.noConfusion h
                          | some p =>
                            obtain ⟨lx, r1⟩ := p
                            rw [hl] at h
                            simp only [Option.map_some', Option.some.injEq,
                              Prod.mk.injEq] at h
                            obtain ⟨hv, hr⟩ := h
                            rw [hr] at hl
                            obtain ⟨hdec, hshape, hre⟩ := lexNumber_swap _ lx r hl
                            rcases hshape with ⟨d, t0, hlx, hd⟩ | ⟨d, t0, hlx, hd⟩
                            · subst hlx
                              refine ⟨d :: t0, hdec,
                                ⟨d, t0, rfl, digit_valueStart d hd⟩, ?_⟩
                              intro n₂ r₂ hno hb
                              obtain ⟨m, rfl⟩ : ∃ m, n₂ = m + 1 :=
                                ⟨n₂ - 1, by omega⟩
                              rw [← hv]
                              have hl₂ := hre r₂ hno
                              simp only [List.cons_append] at hl₂ ⊢
                              exact parseVal_build_num m d (t0 ++ r₂) r₂ _ hd hl₂
                            · subst hlx
                              simp only [List.cons_append] at hdec
                              injection hdec with hh ht
                              exact absurd hh h9
    · intro s acc v r h
      rw [parseMembers.eq_def] at h
      simp only at h
      cases hk : scanString n s with
      | none => rw [hk] at h; exact Option.noConfusion h
      | some p =>
        obtain ⟨key, s1⟩ := p
        rw [hk] at h
        simp only at h
        split at h
        · rename_i s2 heq1
          cases hpv : parseVal n (skipWs s2) with
          | none => rw [hpv] at h; exact Option.noConfusion h
          | some q =>
            obtain ⟨v1, s3⟩ := q
            rw [hpv] at h
            simp only at h
            obtain ⟨cK, hdecK, hreK⟩ := scanString_swap n s key s1 hk
            obtain ⟨cV, hdecV, ⟨e0, e', hcV, hval⟩, hreV⟩ := ihV (skipWs s2) v1 s3 hpv
            obtain ⟨hdec1, hw1⟩ := skipWs_decomp s1 _ heq1
            obtain ⟨hdec2, hw2⟩ := skipWs_decomp s2 _ rfl
            split at h
            · rename_i r' heq3
              simp only [Option.some.injEq, Prod.mk.injEq] at h
              obtain ⟨hvv, hr⟩ := h
              rw [hr] at heq3
              obtain ⟨hdec3, hw3⟩ := skipWs_decomp s3 _ heq3
              rw [hdec3] at hdecV
              rw [hdecV] at hdec2
              rw [hdec2] at hdec1
              rw [hdec1] at hdecK
              refine ⟨cK ++ (s1.takeWhile jsonWsChar ++ ':' ::
                (s2.takeWhile jsonWsChar ++ (cV ++
                  (s3.takeWhile jsonWsChar ++ ['}'])))),
                by rw [hdecK]; simp, ?_⟩
              intro n₂ r₂ hno hb
              obtain ⟨m, rfl⟩ : ∃ m, n₂ = m + 1 := ⟨n₂ - 1, by omega⟩
              simp only [List.length_append, List.length_cons, List.length_nil] at hb
              have hass : (cK ++ (s1.takeWhile jsonWsChar ++ ':' ::
                  (s2.takeWhile jsonWsChar ++ (cV ++
                    (s3.takeWhile jsonWsChar ++ ['}']))))) ++ r₂
                  = cK ++ (s1.takeWhile jsonWsChar ++ ':' ::
                    (s2.takeWhile jsonWsChar ++ (cV ++
                      (s3.takeWhile jsonWsChar ++ '}' :: r₂)))) := by simp
              rw [hass, ← hvv]
              refine parseMembers_build_last m _ key _ _ v1 _ r₂ acc
                (hreK m _ (by omega))
                (skipWs_app_cons _ ':' _ hw1 (by decide))
                ?_
                (skipWs_app_cons _ '}' r₂ hw3 (by decide))
              rw [skipWs_app_val _ cV _ e0 e' hw2 hcV hval]
              exact hreV m _ (noExt_ws_app _ '}' r₂ hw3 (by decide)) (by omega)
            · rename_i s4 heq3
              split at h
              · rename_i s5 heq4
                obtain ⟨cM, hdecM, hreM⟩ := ihM s5 _ v r h
                obtain ⟨hdec3, hw3⟩ := skipWs_decomp s3 _ heq3
                obtain ⟨hdec4, hw4⟩ := skipWs_decomp s4 _ heq4
                rw [hdecM] at hdec4
                rw [hdec4] at hdec3
                rw [hdec3] at hdecV
                rw [hdecV] at hdec2
                rw [hdec2] at hdec1
                rw [hdec1] at hdecK
                refine ⟨cK ++ (s1.takeWhile jsonWsChar ++ ':' ::
                  (s2.takeWhile jsonWsChar ++ (cV ++
                    (s3.takeWhile jsonWsChar ++ ',' ::
                      (s4.takeWhile jsonWsChar ++ '"' :: cM))))),
                  by rw [hdecK]; simp, ?_⟩
                intro n₂ r₂ hno hb
                obtain ⟨m, rfl⟩ : ∃ m, n₂ = m + 1 := ⟨n₂ - 1, by omega⟩
                simp only [List.length_append, List.length_cons,
                  List.length_nil] at hb
                have hass : (cK ++ (s1.takeWhile jsonWsChar ++ ':' ::
                    (s2.takeWhile jsonWsChar ++ (cV ++
                      (s3.takeWhile jsonWsChar ++ ',' ::
                        (s4.takeWhile jsonWsChar ++ '"' :: cM)))))) ++ r₂
                    = cK ++ (s1.takeWhile jsonWsChar ++ ':' ::
                      (s2.takeWhile jsonWsChar ++ (cV ++
                        (s3.takeWhile jsonWsChar ++ ',' ::
                          (s4.takeWhile jsonWsChar ++ '"' :: (cM ++ r₂)))))) := by
                  simp
                rw [hass]
                refine parseMembers_build_step m _ key _ _ v1 _ _ _ acc v r₂
                  (hreK m _ (by omega))
                  (skipWs_app_cons _ ':' _ hw1 (by decide))
                  ?_
                  (skipWs_app_cons _ ',' _ hw3 (by decide))
                  (skipWs_app_cons _ '"' _ hw4 (by decide))
                  (hreM m r₂ hno (by omega))
                rw [skipWs_app_val _ cV _ e0 e' hw2 hcV hval]
                exact hreV m _ (noExt_ws_app _ ',' _ hw3 (by decide)) (by omega)
              · exact Option.noConfusion h
            · exact Option.noConfusion h
        · exact Option.noConfusion h
    · intro s acc v r h
      rw [parseElems.eq_def] at h
      simp only at h
      cases hpv : parseVal n s with
      | none => rw [hpv] at h; exact Option.noConfusion h
      | some q =>
        obtain ⟨v1, s1⟩ := q
        rw [hpv] at h
        simp only at h
        obtain ⟨cV, hdecV, ⟨e0, e', hcV, hval⟩, hreV⟩ := ihV s v1 s1 hpv
        split at h
        · rename_i r' heq1
          simp only [Option.some.injEq, Prod.mk.injEq] at h
          obtain ⟨hvv, hr⟩ := h
          rw [hr] at heq1
          obtain ⟨hdec1, hw1⟩ := skipWs_decomp s1 _ heq1
          rw [hdec1] at hdecV
          refine ⟨cV ++ (s1.takeWhile jsonWsChar ++ [']']),
            by rw [hdecV]; simp,
            ⟨e0, e' ++ (s1.takeWhile jsonWsChar ++ [']']), by rw [hcV]; rfl, hval⟩,
            ?_⟩
          intro n₂ r₂ hno hb
          obtain ⟨m, rfl⟩ : ∃ m, n₂ = m + 1 := ⟨n₂ - 1, by omega⟩
          simp only [List.length_append, List.length_cons, List.length_nil] at hb
          have hass : (cV ++ (s1.takeWhile jsonWsChar ++ [']'])) ++ r₂
              = cV ++ (s1.takeWhile jsonWsChar ++ ']' :: r₂) := by simp
          rw [hass, ← hvv]
          exact parseElems_build_last m _ v1 _ r₂ acc
            (hreV m _ (noExt_ws_app _ ']' r₂ hw1 (by decide)) (by omega))
            (skipWs_app_cons _ ']' r₂ hw1 (by decide))
        · rename_i s2 heq1
          obtain ⟨cE, hdecE, ⟨f0, f', hcE, hfval⟩, hreE⟩ := ihE (skipWs s2) _ v r h
          obtain ⟨hdec1, hw1⟩ := skipWs_decomp s1 _ heq1
          obtain ⟨hdec2, hw2⟩ := skipWs_decomp s2 _ rfl
          rw [hdecE] at hdec2
          rw [hdec2] at hdec1
          rw [hdec1] at hdecV
          refine ⟨cV ++ (s1.takeWhile jsonWsChar ++ ',' ::
            (s2.takeWhile jsonWsChar ++ cE)),
            by rw [hdecV]; simp,
            ⟨e0, e' ++ (s1.takeWhile jsonWsChar ++ ',' ::
              (s2.takeWhile jsonWsChar ++ cE)), by rw [hcV]; rfl, hval⟩,
            ?_⟩
          intro n₂ r₂ hno hb
          obtain ⟨m, rfl⟩ : ∃ m, n₂ = m + 1 := ⟨n₂ - 1, by omega⟩
          simp only [List.length_append, List.length_cons, List.length_nil] at hb
          have hass : (cV ++ (s1.takeWhile jsonWsChar ++ ',' ::
              (s2.takeWhile jsonWsChar ++ cE))) ++ r₂
              = cV ++ (s1.takeWhile jsonWsChar ++ ',' ::
                (s2.takeWhile jsonWsChar ++ (cE ++ r₂))) := by simp
          rw [hass]
          refine parseElems_build_step m _ v1 _ _ acc v r₂
            (hreV m _ (noExt_ws_app _ ',' _ hw1 (by decide)) (by omega))
            (skipWs_app_cons _ ',' _ hw1 (by decide))
            ?_
          rw [skipWs_app_val _ cE r₂ f0 f' hw2 hcE hfval]
          exact hreE m r₂ hno (by omega)
        · exact Option.noConfusion h


/-- An `Extra data` outcome of `json.loads`: the text up to the reported
position decodes on its own, with nothing left over. -/
theorem jsonLoads_extra_take (s : List Char) (pos : Nat)
    (h : jsonLoads s = .extraData pos) :
    pos ≤ s.length ∧ ∃ v, jsonLoads (s.take pos) = .ok v := by
  rw [jsonLoads] at h
  cases hpv : parseVal (s.length + 1) (skipWs s) with
  | none => rw [hpv] at h; exact LoadRes.noConfusion h
  | some p =>
    obtain ⟨v, rest⟩ := p
    rw [hpv] at h
    simp only at h
    by_cases hre : skipWs rest = []
    · rw [if_pos hre] at h
      exact LoadRes.noConfusion h
    · rw [if_neg hre] at h
      have hpos : pos = s.length - (skipWs rest).length :=
        (LoadRes.extraData.inj h).symm
      obtain ⟨c, hdecC, ⟨h₀, c', hcC, hval⟩, hreC⟩ :=
        (parse_swap (s.length + 1)).1 (skipWs s) v rest hpv
      obtain ⟨hdec0, hw0⟩ := skipWs_decomp s _ rfl
      obtain ⟨hdec1, hw1⟩ := skipWs_decomp rest _ rfl
      rw [hdec1] at hdecC
      rw [hdecC] at hdec0
      obtain ⟨P, hP⟩ : ∃ P, P = s.takeWhile jsonWsChar ++
          (c ++ rest.takeWhile jsonWsChar) := ⟨_, rfl⟩
      have hs2 : s = P ++ skipWs rest := by
        rw [hP]
        conv_lhs => rw [hdec0]
        simp
      have hlen : s.length = P.length + (skipWs rest).length := by
        conv_lhs => rw [hs2]
        simp
      have hpos2 : pos = P.length := by omega
      have htake : s.take pos = P := by
        rw [hpos2]
        conv_lhs => rw [hs2]
        exact List.take_left _ _
      refine ⟨by omega, v, ?_⟩
      rw [htake, jsonLoads, hP]
      rw [skipWs_app_val _ c _ h₀ c' hw0 hcC hval]
      have hbound : c.length < (s.takeWhile jsonWsChar ++
          (c ++ rest.takeWhile jsonWsChar)).length + 1 := by
        simp only [List.length_append]
        omega
      rw [hreC _ _ (noExt_ws_only _ hw1) hbound]
      simp only
      rw [if_pos (skipWs_all _ hw1)]


/-- An `IncompleteReadError` outcome of the framer body always carries
the whole remaining buffer, clears it, and only happens at end of
stream. -/
theorem readjsonCore_incomplete (buf : List Char) (eof : Bool) (limit : Nat)
    (chunkData buf' : List Char)
    (h : readjsonCore buf eof limit = .incompleteRead chunkData buf') :
    buf' = [] ∧ chunkData = buf ∧ eof = true := by
  unfold readjsonCore at h
  split at h
  · split at h <;> simp_all
  · split at h
    · split at h
      · split at h <;> simp_all
      · split at h
        · simp_all
        · split at h <;> simp_all
      · split at h <;> simp_all
    · simp_all

/-- Running the read loop over a run of successfully dispatched messages
just updates the pending table before the remaining items are
processed. -/
theorem readLoop_append_msgs (msgs : List JsonValue) (st : VLCState)
    (rest : List ReadItem) (t : List (Nat × Request))
    (hp : processMsgs st.current_requests msgs = (t, none)) :
    readLoop st (msgs.map .msg ++ rest)
      = readLoop { st with current_requests := t } rest := by
  induction msgs generalizing st with
  | nil =>
    simp only [processMsgs] at hp
    cases hp
    rfl
  | cons v msgs ih =>
    simp only [List.map_cons, List.cons_append, readLoop]
    simp only [processMsgs] at hp
    cases hd : dispatchReply st.current_requests v with
    | mk t1 exc =>
      rw [hd] at hp
      cases exc with
      | none =>
        simp only [hd]
        exact ih { st with current_requests := t1 } hp
      | some e => simp at hp

/-- Replacing the entry with one id leaves lookups of every other id
unchanged. -/
theorem lookupReq_updateReq_ne (table : List (Nat × Request)) (rid : Int)
    (req : Request) (id2 : Int) (h : id2 ≠ rid) :
    lookupReq (updateReq table rid req) id2 = lookupReq table id2 := by
  induction table with
  | nil => rfl
  | cons p rest ih =>
    by_cases hk : (p.1 : Int) = rid
    · have hk2 : ¬((p.1 : Int) = id2) := fun hh => h (hh ▸ hk)
      simp [updateReq, lookupReq, hk, hk2, ih, Ne.symm h]
    · by_cases hk2 : (p.1 : Int) = id2
      · simp [updateReq, lookupReq, hk, hk2, ih, h, Ne.symm h]
      · simp [updateReq, lookupReq, hk, hk2, ih, h, Ne.symm h]

/-- Replacing an entry that is present makes lookups of its id see the
replacement. -/
theorem lookupReq_updateReq_self (table : List (Nat × Request)) (rid : Int)
    (req r : Request) (hl : lookupReq table rid = some r) :
    lookupReq (updateReq table rid req) rid = some req := by
  induction table with
  | nil => simp [lookupReq] at hl
  | cons p rest ih =>
    by_cases hk : (p.1 : Int) = rid
    · simp [updateReq, lookupReq, hk]
    · rw [lookupReq, if_neg hk] at hl
      simp [updateReq, lookupReq, hk, ih hl]

/-- Dispatching a reply whose id finds an entry that is not yet resolved
stores the reply there and resolves the entry unless it was cancelled,
raising nothing. -/
theorem dispatchReply_hit (table : List (Nat × Request)) (reply : JsonValue)
    (rid : Int) (req : Request)
    (hrid : getReplyId reply = some rid)
    (hl : lookupReq table rid = some req)
    (hnr : req.completed ≠ .resolved) :
    dispatchReply table reply
      = (updateReq table rid
          { req with
              request_reply := some reply,
              completed := (if req.completed = FutureState.cancelled
                            then FutureState.cancelled else FutureState.resolved) },
         none) := by
  cases reply with
  | obj fields =>
    simp only [getReplyId] at hrid
    cases hg : dictGet fields "reply_id" with
    | none => simp [hg] at hrid
    | some idv =>
      rw [hg] at hrid
      simp only [Option.some_bind] at hrid
      simp only [dispatchReply, hg, hrid, hl]
      cases hcomp : req.completed with
      | pending => simp [hcomp, set_result]
      | resolved => exact absurd hcomp hnr
      | cancelled => simp [hcomp]
  | null => simp [getReplyId] at hrid
  | bool b => simp [getReplyId] at hrid
  | num lx => simp [getReplyId] at hrid
  | str s => simp [getReplyId] at hrid
  | arr l => simp [getReplyId] at hrid

/-- Dispatching a reply whose id finds no entry leaves the table
unchanged and raises nothing. -/
theorem dispatchReply_miss (table : List (Nat × Request)) (reply : JsonValue)
    (rid : Int) (hrid : getReplyId reply = some rid)
    (hl : lookupReq table rid = none) :
    dispatchReply table reply = (table, none) := by
  cases reply with
  | obj fields =>
    simp only [getReplyId] at hrid
    cases hg : dictGet fields "reply_id" with
    | none => simp [hg] at hrid
    | some idv =>
      rw [hg] at hrid
      simp only [Option.some_bind] at hrid
      simp [dispatchReply, hg, hrid, hl]
  | null => simp [getReplyId] at hrid
  | bool b => simp [getReplyId] at hrid
  | num lx => simp [getReplyId] at hrid
  | str s => simp [getReplyId] at hrid
  | arr l => simp [getReplyId] at hrid

/-- Dispatching a message whose id is not `x` never changes what a
lookup of `x` sees. -/
theorem dispatchReply_other (t : List (Nat × Request)) (v : JsonValue)
    (x : Int) (h : getReplyId v ≠ some x) :
    lookupReq (dispatchReply t v).1 x = lookupReq t x := by
  cases v with
  | obj fields =>
    cases hg : dictGet fields "reply_id" with
    | none => simp [dispatchReply, hg]
    | some idv =>
      cases hk : jsonKeyInt idv with
      | none => simp [dispatchReply, hg, hk]
      | some rid =>
        have hne : x ≠ rid := fun hh => h (by simp [getReplyId, hg, hk, hh])
        cases hl : lookupReq t rid with
        | none => simp [dispatchReply, hg, hk, hl]
        | some req =>
          have hu : ∀ r : Request, lookupReq (updateReq t rid r) x = lookupReq t x :=
            fun r => lookupReq_updateReq_ne t rid r x hne
          by_cases hcc : req.completed = .cancelled
          · simp [dispatchReply, hg, hk, hl, hcc, hu]
          · cases hs : set_result req.completed with
            | ok fs => simp [dispatchReply, hg, hk, hl, hcc, hs, hu]
            | error e => simp [dispatchReply, hg, hk, hl, hcc, hs, hu]
  | null => rfl
  | bool b => rfl
  | num lx => rfl
  | str s => rfl
  | arr l => rfl

/-- Dispatching a list of messages none of which carries the id `x`
never changes what a lookup of `x` sees. -/
theorem dispatchAll_other (replies : List JsonValue)
    (t : List (Nat × Request)) (x : Int)
    (h : ∀ v ∈ replies, getReplyId v ≠ some x) :
    lookupReq (dispatchAll t replies) x = lookupReq t x := by
  induction replies generalizing t with
  | nil => rfl
  | cons v rest ih =>
    have h1 : dispatchAll t (v :: rest) = dispatchAll (dispatchReply t v).1 rest := rfl
    rw [h1, ih _ (fun u hu => h u (List.mem_cons_of_mem _ hu))]
    exact dispatchReply_other t v x (h v (List.mem_cons_self _ _))

/-- Delivering replies with pairwise distinct ids, in any order, ends
with each addressed entry holding its own reply, resolved. -/
theorem dispatchAll_resolves (replies : List JsonValue)
    (t : List (Nat × Request))
    (hall : ∀ v ∈ replies, ∃ rid req, getReplyId v = some rid
        ∧ lookupReq t rid = some req ∧ req.completed = .pending)
    (hnd : (replies.map getReplyId).Nodup) :
    ∀ v ∈ replies, ∀ rid req, getReplyId v = some rid →
      lookupReq t rid = some req →
      lookupReq (dispatchAll t replies) rid
        = some { req with request_reply := some v, completed := .resolved } := by
  induction replies generalizing t with
  | nil => intro v hv; simp at hv
  | cons v0 rest ih =>
    obtain ⟨rid0, req0, hr0, hl0, hp0⟩ := hall v0 (List.mem_cons_self _ _)
    rw [List.map_cons, List.nodup_cons] at hnd
    have hrest : ∀ u ∈ rest, getReplyId u ≠ some rid0 := by
      intro u hu hc
      apply hnd.1
      have hm : getReplyId u ∈ rest.map getReplyId :=
        List.mem_map_of_mem getReplyId hu
      rw [hc] at hm
      rw [hr0]
      exact hm
    have hfst : (dispatchReply t v0).1
        = updateReq t rid0
            { req0 with request_reply := some v0, completed := .resolved } := by
      have hh := dispatchReply_hit t v0 rid0 req0 hr0 hl0 (by rw [hp0]; simp)
      rw [hp0] at hh
      rw [hh]
      simp
    have hstep : dispatchAll t (v0 :: rest)
        = dispatchAll (dispatchReply t v0).1 rest := rfl
    intro v hv rid req hr hl
    rcases List.mem_cons.mp hv with hv0 | hvr
    · subst hv0
      rw [hr] at hr0
      cases hr0
      rw [hl] at hl0
      cases hl0
      rw [hstep, hfst, dispatchAll_other rest _ rid0 hrest]
      exact lookupReq_updateReq_self t rid0 _ req0 hl
    · have hne : rid ≠ rid0 := by
        intro hc
        apply hrest v hvr
        rw [← hc]
        exact hr
      have hl' : lookupReq (dispatchReply t v0).1 rid = some req := by
        rw [hfst, lookupReq_updateReq_ne _ _ _ _ hne]
        exact hl
      have hall' : ∀ u ∈ rest, ∃ rid' req', getReplyId u = some rid'
          ∧ lookupReq (dispatchReply t v0).1 rid' = some req'
          ∧ req'.completed = .pending := by
        intro u hu
        obtain ⟨rid', req', hru, hlu, hpu⟩ := hall u (List.mem_cons_of_mem _ hu)
        refine ⟨rid', req', hru, ?_, hpu⟩
        rw [hfst, lookupReq_updateReq_ne _ _ _ _
          (fun hc => hrest u hu (by rw [← hc]; exact hru))]
        exact hlu
      rw [hstep]
      exact ih _ hall' hnd.2 v hvr rid req hr hl'

/-! # The claims -/

/-- C1: the spec says that after `\x7b"a":1\x7d\x7b"b":2\x7d` is fed as
one chunk, two `readjson` calls return the two objects and leave the
buffer empty, the boundary of a whole-buffer parse being the buffer end.
The code sets `sep = len(self._buffer)-1` on a whole-buffer parse
(src/main.py line 42), one short of the buffer end, so the second call
leaves the closing brace behind — and that residual byte trips the
reader's own json-start assertion on the next call. -/
theorem C1_boundary_off_by_one :
    readjson ("\x7b\"a\":1\x7d\x7b\"b\":2\x7d".data) false 65536
        = .ok (.obj [("a", .num "1")]) ("\x7b\"b\":2\x7d".data)
    ∧ readjson ("\x7b\"b\":2\x7d".data) false 65536
        = .ok (.obj [("b", .num "2")]) ['\x7d']
    ∧ readjson ['\x7d'] false 65536 = .assertError ['\x7d'] :=
  ⟨rfl, rfl, rfl⟩

/-- C2, counterexample: a malformed stream fails the json-start
assertion, and `AssertionError` is not among the exceptions the read
loop catches, so the failure is neither recorded on the connection nor
fanned out to the pending entry — the entry is still pending after the
loop terminates. -/
theorem C2_assertion_error_not_handled :
    readjson ("hello".data) false 65536 = .assertError ("hello".data)
    ∧ ReadRes.raised? (.assertError ("hello".data)) = some .assertionError
    ∧ caughtByReadLoop .assertionError = false
    ∧ (readLoop oneRequestState [.err .assertionError]).read_exception = none
    ∧ lookupReq (readLoop oneRequestState [.err .assertionError]).current_requests 0
        = some (sampleRequest 0)
    ∧ (sampleRequest 0).completed = .pending :=
  ⟨rfl, rfl, rfl, rfl, rfl, rfl⟩

/-- C2, amended: when the read fails with one of the exceptions the
loop's `except` clause does catch — `RuntimeError` or
`IncompleteReadError` (the latter covering end-of-stream) — the loop
records the error, cancels every still-pending entry, and dispatches
nothing after the failure; but an `AssertionError` from a malformed
stream (or any other uncaught exception, such as `LimitOverrunError` or
a `ConnectionResetError`) propagates without recording or
cancellation. -/
theorem C2_read_failure_fanout (st : VLCState) (msgs : List JsonValue)
    (post : List ReadItem) (e : PyExc) (t : List (Nat × Request))
    (hc : caughtByReadLoop e = true)
    (hp : processMsgs st.current_requests msgs = (t, none)) :
    readLoop st (msgs.map .msg ++ .err e :: post)
        = readLoopFinally (readLoopHandle { st with current_requests := t } e)
    ∧ (readLoop st (msgs.map .msg ++ .err e :: post)).read_exception = some e
    ∧ (readLoop st (msgs.map .msg ++ .err e :: post)).current_requests
        = cancelPending t
    ∧ ∀ post', readLoop st (msgs.map .msg ++ .err e :: post)
        = readLoop st (msgs.map .msg ++ .err e :: post') := by
  have h1 : ∀ p : List ReadItem, readLoop st (msgs.map .msg ++ .err e :: p)
      = readLoopFinally (readLoopHandle { st with current_requests := t } e) := by
    intro p
    rw [readLoop_append_msgs msgs st _ t hp]
    rfl
  refine ⟨h1 post, ?_, ?_, fun post' => by rw [h1 post, h1 post']⟩
  · rw [h1 post]
    simp [readLoopFinally, readLoopHandle, hc]
  · rw [h1 post]
    simp [readLoopFinally, readLoopHandle, hc]

/-- C2, witness: three outstanding requests, a read failure, and one
further reply after it: the failure is recorded and all three entries
are cancelled; the trailing reply is never dispatched. -/
theorem C2_read_failure_fanout_witness :
    (readLoop threeRequestState
        (([] : List JsonValue).map .msg
          ++ .err (.incompleteReadError []) :: [.msg (sampleReply 0)])).read_exception
      = some (.incompleteReadError [])
    ∧ (readLoop threeRequestState
        (([] : List JsonValue).map .msg
          ++ .err (.incompleteReadError []) :: [.msg (sampleReply 0)])).current_requests
      = cancelPending threeRequestState.current_requests := by
  have h := C2_read_failure_fanout threeRequestState [] [.msg (sampleReply 0)]
    (.incompleteReadError []) threeRequestState.current_requests rfl rfl
  exact ⟨h.2.1, h.2.2.1⟩

/-- C3: whenever the framer finds a frame boundary at an offset past the
configured limit, it raises `LimitOverrunError` and keeps the buffered
bytes (only the leading whitespace was deleted, as on every call); a
subsequent call on the preserved buffer with the limit raised and no
further bytes fed behaves exactly like the original call would have with
the higher limit, and returns the frame's decoded object. -/
theorem C3_limit_recoverability (buffer : List Char) (eof : Bool)
    (limit sep : Nat) (buf' : List Char) (limit₂ : Nat)
    (h : readjson buffer eof limit = .limitOverrun sep buf')
    (h₂ : sep ≤ limit₂) :
    buf' = buffer.dropWhile pyIsSpaceByte
    ∧ limit < sep
    ∧ readjson buf' eof limit₂ = readjson buffer eof limit₂
    ∧ ∃ v, readjson buffer eof limit₂ = .ok v (buf'.drop sep) := by
  unfold readjson at h
  cases hB : buffer.dropWhile pyIsSpaceByte with
  | nil =>
    rw [hB] at h
    unfold readjsonCore at h
    simp only at h
    split at h <;> exact ReadRes.noConfusion h
  | cons c0 bt =>
    rw [hB] at h
    unfold readjsonCore at h
    simp only at h
    by_cases hc : c0 = '{' ∨ c0 = '['
    · rw [if_pos hc] at h
      have hps : (c0 :: bt).dropWhile pyIsSpaceByte = c0 :: bt := by
        rw [List.dropWhile_cons]
        have hns : pyIsSpaceByte c0 = false := by
          rcases hc with rfl | rfl <;> decide
        simp [hns]
      cases hj : jsonLoads (c0 :: bt) with
      | ok v =>
        rw [hj] at h
        simp only at h
        by_cases hlim : limit < (c0 :: bt).length - 1
        · rw [if_pos hlim] at h
          obtain ⟨hsep, hbuf⟩ := ReadRes.limitOverrun.inj h
          have hretry : readjsonCore (c0 :: bt) eof limit₂
              = .ok v ((c0 :: bt).drop ((c0 :: bt).length - 1)) := by
            unfold readjsonCore
            simp only
            rw [if_pos hc, hj]
            simp only
            rw [if_neg (by omega)]
          refine ⟨hbuf.symm, by rw [← hsep]; exact hlim, ?_, v, ?_⟩
          · unfold readjson
            rw [hB, ← hbuf, hps]
          · unfold readjson
            rw [hB, hretry, ← hbuf, ← hsep]
        · rw [if_neg hlim] at h
          exact ReadRes.noConfusion h
      | extraData pos =>
        rw [hj] at h
        simp only at h
        by_cases hlim : limit < pos
        · rw [if_pos hlim] at h
          obtain ⟨hsep, hbuf⟩ := ReadRes.limitOverrun.inj h
          obtain ⟨hple, v, hok⟩ := jsonLoads_extra_take (c0 :: bt) pos hj
          have hretry : readjsonCore (c0 :: bt) eof limit₂
              = .ok v ((c0 :: bt).drop pos) := by
            unfold readjsonCore
            simp only
            rw [if_pos hc, hj]
            simp only
            rw [if_neg (by omega), hok]
          refine ⟨hbuf.symm, by rw [← hsep]; exact hlim, ?_, v, ?_⟩
          · unfold readjson
            rw [hB, ← hbuf, hps]
          · unfold readjson
            rw [hB, hretry, ← hbuf, ← hsep]
        · rw [if_neg hlim] at h
          split at h <;> exact ReadRes.noConfusion h
      | fail =>
        rw [hj] at h
        simp only at h
        split at h <;> exact ReadRes.noConfusion h
    · rw [if_neg hc] at h
      exact ReadRes.noConfusion h

/-- C3, witness: the seven-byte object `\x7b"a":1\x7d` against a limit of
three; the retry with the limit raised to the reported boundary returns
the object. -/
theorem C3_limit_recoverability_witness :
    "\x7b\"a\":1\x7d".data = ("\x7b\"a\":1\x7d".data).dropWhile pyIsSpaceByte
    ∧ 3 < 6
    ∧ readjson ("\x7b\"a\":1\x7d".data) false 6
        = readjson ("\x7b\"a\":1\x7d".data) false 6
    ∧ ∃ v, readjson ("\x7b\"a\":1\x7d".data) false 6
        = .ok v (("\x7b\"a\":1\x7d".data).drop 6) :=
  C3_limit_recoverability ("\x7b\"a\":1\x7d".data) false 3 6
    ("\x7b\"a\":1\x7d".data) 6 rfl (by decide)


/-- C4: at end of stream with no boundary in the buffered bytes, the
framer raises `IncompleteReadError` carrying the buffer's contents (the
leading whitespace already skipped) and clears the buffer, and a further
call on the cleared buffer raises again with empty contents instead of
replaying stale bytes. -/
theorem C4_incomplete_frame_clears_buffer (buffer : List Char) (eof : Bool)
    (limit : Nat) (chunkData buf' : List Char)
    (h : readjson buffer eof limit = .incompleteRead chunkData buf') :
    buf' = [] ∧ chunkData = buffer.dropWhile pyIsSpaceByte
      ∧ readjson buf' eof limit = .incompleteRead [] [] := by
  have h' := readjsonCore_incomplete _ _ _ _ _ h
  refine ⟨h'.1, h'.2.1, ?_⟩
  rw [h'.1, h'.2.2]
  rfl

/-- C4, witness: the partial object from the specification's scenario. -/
theorem C4_incomplete_frame_clears_buffer_witness :
    ([] : List Char) = []
    ∧ "\x7b\"a\":1".data = ("\x7b\"a\":1".data).dropWhile pyIsSpaceByte
    ∧ readjson [] true 65536 = .incompleteRead [] [] :=
  C4_incomplete_frame_clears_buffer ("\x7b\"a\":1".data) true 65536
    ("\x7b\"a\":1".data) [] rfl

/-- C5: a message carrying a `reply_id` resolves exactly the pending
entry with that id — storing the payload and resolving the future unless
the entry was already cancelled — while every other entry is untouched;
a message whose id matches nothing is discarded silently; and delivering
distinct-id replies in any order ends with each entry holding its own
reply. -/
theorem C5_reply_correlation (table : List (Nat × Request)) :
    (∀ reply rid req, getReplyId reply = some rid →
        lookupReq table rid = some req → req.completed ≠ .resolved →
        dispatchReply table reply
          = (updateReq table rid
              { req with
                  request_reply := some reply,
                  completed := (if req.completed = FutureState.cancelled
                                then FutureState.cancelled
                                else FutureState.resolved) },
             none)
        ∧ ∀ id2 : Int, id2 ≠ rid →
            lookupReq (dispatchReply table reply).1 id2 = lookupReq table id2)
    ∧ (∀ reply rid, getReplyId reply = some rid →
        lookupReq table rid = none →
        dispatchReply table reply = (table, none))
    ∧ (∀ replies : List JsonValue,
        (∀ v ∈ replies, ∃ rid req, getReplyId v = some rid
            ∧ lookupReq table rid = some req ∧ req.completed = .pending) →
        (replies.map getReplyId).Nodup →
        ∀ v ∈ replies, ∀ rid req, getReplyId v = some rid →
          lookupReq table rid = some req →
          lookupReq (dispatchAll table replies) rid
            = some { req with
                       request_reply := some v,
                       completed := FutureState.resolved }) := by
  refine ⟨fun reply rid req hrid hl hnr => ⟨dispatchReply_hit table reply rid req hrid hl hnr, ?_⟩,
    fun reply rid hrid hl => dispatchReply_miss table reply rid hrid hl,
    fun replies => dispatchAll_resolves replies table⟩
  intro id2 h2
  rw [dispatchReply_hit table reply rid req hrid hl hnr]
  exact lookupReq_updateReq_ne table rid _ id2 h2

/-- C5, witness: three outstanding requests answered in a permuted
order; the entry with id 0 ends up holding exactly its own reply,
resolved. -/
theorem C5_reply_correlation_witness :
    lookupReq (dispatchAll threeRequestState.current_requests
        [sampleReply 2, sampleReply 0, sampleReply 1]) 0
      = some { sampleRequest 0 with
                 request_reply := some (sampleReply 0),
                 completed := FutureState.resolved } := by
  refine (C5_reply_correlation threeRequestState.current_requests).2.2
    [sampleReply 2, sampleReply 0, sampleReply 1] ?_ (by decide)
    (sampleReply 0) (by simp) 0 (sampleRequest 0) rfl rfl
  intro v hv
  simp only [List.mem_cons, List.not_mem_nil, or_false] at hv
  rcases hv with rfl | rfl | rfl
  · exact ⟨2, sampleRequest 2, rfl, rfl, rfl⟩
  · exact ⟨0, sampleRequest 0, rfl, rfl, rfl⟩
  · exact ⟨1, sampleRequest 1, rfl, rfl, rfl⟩

/-- C6: the reply inspection in `execute` — a true `timeout` flag fails
with the timeout condition regardless of the other fields; otherwise a
present non-null `error` field fails carrying it; otherwise the payload
is returned unchanged. -/
theorem C6_execute_reply_inspection (lua : String)
    (fields : List (String × JsonValue)) :
    (dictGet fields "timeout" = some (.bool true) →
        execute_post lua (.obj fields) = .timeoutError lua)
    ∧ (dictGet fields "timeout" = some (.bool false) →
        (∀ ev, dictGet fields "error" = some ev → ev ≠ .null →
            execute_post lua (.obj fields) = .remoteError lua ev)
        ∧ ((dictGet fields "error" = none ∨ dictGet fields "error" = some .null) →
            execute_post lua (.obj fields) = .ok (.obj fields))) := by
  refine ⟨fun ht => by simp [execute_post, ht, pyTruthy], fun ht => ⟨?_, ?_⟩⟩
  · intro ev hev hne
    simp only [execute_post, ht, pyTruthy]
    rw [hev]
    cases ev <;> simp_all
  · rintro (he | he) <;> simp [execute_post, ht, pyTruthy, he]

/-- C6, witness: a reply with both `timeout: true` and a `result`
field fails with the timeout condition. -/
theorem C6_execute_reply_inspection_witness :
    execute_post "return 2+2"
        (.obj [("timeout", .bool true), ("result", .num "4")])
      = .timeoutError "return 2+2" :=
  (C6_execute_reply_inspection "return 2+2"
      [("timeout", .bool true), ("result", .num "4")]).1 rfl

/-- C7: the outgoing frame is the UTF-8 encoding of
`"<innerLength>:<id>:<commandText>"`, the inner length being the
character count of `"<id>:<commandText>"`, with no trailing
delimiter. -/
theorem C7_request_wire_format (r : Request) :
    r.bytes = specWireFrame r.request_id r.request_code :=
  rfl

/-- C8: once a read error is recorded, `issue_request` raises it at
once, leaving the counter, the pending table and the write log
untouched. -/
theorem C8_issue_request_fail_fast (st : VLCState) (lua : String) (e : PyExc)
    (h : st.read_exception = some e) :
    issue_request st lua = (st, .error e)
    ∧ (issue_request st lua).1.request_count = st.request_count
    ∧ (issue_request st lua).1.current_requests = st.current_requests
    ∧ (issue_request st lua).1.written = st.written := by
  have he : issue_request st lua = (st, .error e) := by
    simp [issue_request, h]
  exact ⟨he, by rw [he], by rw [he], by rw [he]⟩

/-- C8, witness. -/
theorem C8_issue_request_fail_fast_witness :
    issue_request { oneRequestState with read_exception := some .runtimeError }
        "return 1"
      = ({ oneRequestState with read_exception := some .runtimeError },
         .error .runtimeError) :=
  (C8_issue_request_fail_fast
      { oneRequestState with read_exception := some .runtimeError }
      "return 1" .runtimeError rfl).1

/-- C9: a reply payload without a `timeout` key makes `execute` raise
`KeyError` from the unconditional `obj['timeout']` lookup — it neither
returns the payload nor raises one of the protocol error kinds. -/
theorem C9_execute_missing_timeout_key (lua : String)
    (fields : List (String × JsonValue))
    (h : dictGet fields "timeout" = none) :
    execute_post lua (.obj fields) = .keyError "timeout"
    ∧ (∀ v, execute_post lua (.obj fields) ≠ .ok v)
    ∧ execute_post lua (.obj fields) ≠ .timeoutError lua
    ∧ ∀ ev, execute_post lua (.obj fields) ≠ .remoteError lua ev := by
  have he : execute_post lua (.obj fields) = .keyError "timeout" := by
    simp [execute_post, h]
  refine ⟨he, ?_, ?_, ?_⟩ <;> simp [he]

/-- C9, witness: a reply carrying only a `result`. -/
theorem C9_execute_missing_timeout_key_witness :
    execute_post "return 2+2" (.obj [("result", .num "4")])
      = .keyError "timeout" :=
  (C9_execute_missing_timeout_key "return 2+2" [("result", .num "4")] rfl).1

/-- C10: on a fresh client whose `shutdown` future was never created,
a first transport-open failure other than a refusal runs the bare
`except:` teardown, whose read of `self.shutdown` raises
`AttributeError`, masking the original connection error. -/
theorem C10_connect_attribute_error_masking (e : PyExc) (a2 : OpenOutcome)
    (testOk : Bool) (_h : e ≠ .connectionRefusedError) :
    connect (.failed e) a2 testOk = .raised .attributeError
    ∧ (e ≠ .attributeError → connect (.failed e) a2 testOk ≠ .raised e) := by
  refine ⟨rfl, fun hne heq => ?_⟩
  exact hne (ConnectOutcome.raised.inj heq).symm

/-- C10, witness: a reset-style `OSError` on the first attempt. -/
theorem C10_connect_attribute_error_masking_witness :
    connect (.failed (.osError 104)) .ok true = .raised .attributeError :=
  (C10_connect_attribute_error_masking (.osError 104) .ok true (by decide)).1

end VlcRemote
